import Mathlib

/-!
# BLINK DB: storage engine, RESP codec and command dispatch

A shallow embedding of `StorageEngine` (`src/src/storage_engine.cpp`), of
`RespProtocol` (`src/src_b/resp_protocol.cpp`) and of the command handling of
`Server` (`src/blink_db_main/server.cpp`), and the proofs of their contract.

Modelling conventions.

* `std::string` is a list of bytes (`Bytes`); `size()` is `List.length`.
* `size_t` is `Nat`.  The contract is stated "assuming no `size_t` overflow";
  the theorem `Inv.size_le_usage` below shows that on reachable states the size
  that the source subtracts from `current_memory_usage_` never exceeds it, so
  truncated subtraction on `Nat` coincides with the machine subtraction there.
* `std::unordered_map<std::string, V>` is an association list (`UMap`), with
  `find`, `erase` and `assign` (`m[k] = v`, or a write through an iterator).
* `std::list<std::string>` is a list of nodes.  Every node carries a handle
  (`LruNode.id`) standing for its address, so that a
  `std::list<std::string>::iterator` stored in `lru_map_` is the handle of the
  node it points to, and `lru_list_.erase(it)` unlinks the node with that
  handle.  `next_node_` is the allocator of fresh handles.
* `std::chrono::steady_clock::now()` is an input of the call (`now`).
* `std::lock_guard` is not modelled: calls are executed one after the other.
* `std::istringstream` is the list of the characters not yet extracted with
  the flag `good()` (`IStream`); an exception of `std::stoi` is the error of an
  `Except`.
* The server is followed on one registered connection (`Connection`): its
  inbound buffer, the shared engine, and the responses passed to `write`, which
  is taken to send them whole.
-/

namespace BlinkDB

/-- A `std::string`: a sequence of bytes. -/
abbrev Bytes := List UInt8

/-! ## `std::unordered_map<std::string, V>` -/

namespace UMap

/-- The keys of the map. -/
def keys {V : Type} (m : List (Bytes × V)) : List Bytes := m.map Prod.fst

/-- The lookup `m.find(k)`: `none` stands for `m.end()`. -/
def find {V : Type} : List (Bytes × V) → Bytes → Option V
  | [], _ => none
  | (k', v) :: t, k => if k' = k then some v else find t k

/-- The removal `m.erase(k)` (or `m.erase(it)` for the iterator of key `k`). -/
def erase {V : Type} : List (Bytes × V) → Bytes → List (Bytes × V)
  | [], _ => []
  | (k', v) :: t, k => if k' = k then t else (k', v) :: erase t k

/-- The assignment `m[k] = v` (also a write through the iterator of `k`):
overwrites the entry of `k`, or inserts one. -/
def assign {V : Type} : List (Bytes × V) → Bytes → V → List (Bytes × V)
  | [], k, v => [(k, v)]
  | (k', v') :: t, k, v => if k' = k then (k, v) :: t else (k', v') :: assign t k v

end UMap

/-! ## The engine state -/

/-- The struct `StorageEngine::CacheItem`. -/
structure CacheItem where
  value : Bytes
  last_accessed : Nat
  size : Nat
deriving DecidableEq, Repr

/-- A node of `lru_list_`: its handle (what an iterator to it holds) and the
key stored in it. -/
structure LruNode where
  id : Nat
  key : Bytes
deriving DecidableEq, Repr

/-- The data members of `class StorageEngine`. -/
structure StorageEngine where
  data_store_ : List (Bytes × CacheItem)
  lru_list_ : List LruNode
  lru_map_ : List (Bytes × Nat)
  max_memory_size_ : Nat
  current_memory_usage_ : Nat
  next_node_ : Nat
deriving DecidableEq, Repr

/-- The constructor `StorageEngine::StorageEngine(max_memory_size)`. -/
def StorageEngine.new (max_memory_size : Nat) : StorageEngine :=
  { data_store_ := [], lru_list_ := [], lru_map_ := [],
    max_memory_size_ := max_memory_size, current_memory_usage_ := 0, next_node_ := 0 }

/-- The constant `OVERHEAD_PER_ENTRY` of `calculateItemSize`. -/
def OVERHEAD_PER_ENTRY : Nat := 64

/-- The method `StorageEngine::calculateItemSize`. -/
def calculateItemSize (key value : Bytes) : Nat :=
  key.length + value.length + OVERHEAD_PER_ENTRY

/-- The method `StorageEngine::getMemoryUsage`. -/
def getMemoryUsage (s : StorageEngine) : Nat := s.current_memory_usage_

/-- The call `lru_list_.erase(it)`: unlink the node whose handle is `h`. -/
def listErase : List LruNode → Nat → List LruNode
  | [], _ => []
  | n :: t, h => if n.id = h then t else n :: listErase t h

/-- The call `lru_list_.push_front(key)` followed by `lru_map_[key] = lru_list_.begin()`
(in `updateLRU`: `it->second = lru_list_.begin()`). -/
def pushFront (s : StorageEngine) (key : Bytes) : StorageEngine :=
  { s with
    lru_list_ := { id := s.next_node_, key := key } :: s.lru_list_
    lru_map_ := UMap.assign s.lru_map_ key s.next_node_
    next_node_ := s.next_node_ + 1 }

/-- The method `StorageEngine::updateLRU`. -/
def updateLRU (s : StorageEngine) (key : Bytes) : StorageEngine :=
  match UMap.find s.lru_map_ key with
  | some h => pushFront { s with lru_list_ := listErase s.lru_list_ h } key
  | none => s

/-- The condition of the `while` of `evictIfNeeded`. -/
def evictCond (s : StorageEngine) (required_size : Nat) : Bool :=
  !s.lru_list_.isEmpty &&
    decide (s.current_memory_usage_ + required_size > s.max_memory_size_)

/-- The body of the `while` of `evictIfNeeded`: evict the key at the back of
`lru_list_`. -/
def evictOne (s : StorageEngine) : StorageEngine :=
  match s.lru_list_.getLast? with
  | none => s
  | some oldest =>
    let oldest_key := oldest.key
    let s1 : StorageEngine :=
      match UMap.find s.data_store_ oldest_key with
      | some it =>
        { s with
          current_memory_usage_ := s.current_memory_usage_ - it.size
          data_store_ := UMap.erase s.data_store_ oldest_key }
      | none => s
    { s1 with
      lru_list_ := s1.lru_list_.dropLast
      lru_map_ := UMap.erase s1.lru_map_ oldest_key }

/-- The `while` of `evictIfNeeded`, run for at most `fuel` iterations. -/
def evictLoop (required_size : Nat) : Nat → StorageEngine → StorageEngine
  | 0, s => s
  | fuel + 1, s =>
    if evictCond s required_size then evictLoop required_size fuel (evictOne s) else s

/-- The method `StorageEngine::evictIfNeeded`.  Every iteration removes one node of
`lru_list_`, so `lru_list_.size()` iterations are enough
(`evictIfNeeded_exits`). -/
def evictIfNeeded (s : StorageEngine) (required_size : Nat) : StorageEngine :=
  evictLoop required_size s.lru_list_.length s

/-- The method `StorageEngine::set`; `now` is the reading of the clock. -/
def set (s : StorageEngine) (now : Nat) (key value : Bytes) : Bool × StorageEngine :=
  let new_item_size := calculateItemSize key value
  match UMap.find s.data_store_ key with
  | some it =>
    let old_size := it.size
    let s1 : StorageEngine :=
      { s with current_memory_usage_ := s.current_memory_usage_ - old_size }
    let s2 : StorageEngine :=
      { s1 with current_memory_usage_ := s1.current_memory_usage_ + new_item_size }
    let s3 : StorageEngine :=
      { s2 with
        data_store_ := UMap.assign s2.data_store_ key
          { value := value, last_accessed := now, size := new_item_size } }
    (true, updateLRU s3 key)
  | none =>
    let s1 := evictIfNeeded s new_item_size
    let item : CacheItem := { value := value, last_accessed := now, size := new_item_size }
    let s2 : StorageEngine :=
      { s1 with
        data_store_ := UMap.assign s1.data_store_ key item
        current_memory_usage_ := s1.current_memory_usage_ + new_item_size }
    (true, pushFront s2 key)

/-- The string literal `"NULL"`, returned by `get` for a missing key. -/
def NULL : Bytes := [78, 85, 76, 76]

/-- The method `StorageEngine::get`; `now` is the reading of the clock. -/
def get (s : StorageEngine) (now : Nat) (key : Bytes) : Bytes × StorageEngine :=
  match UMap.find s.data_store_ key with
  | some it =>
    let it1 : CacheItem := { it with last_accessed := now }
    let s1 : StorageEngine := { s with data_store_ := UMap.assign s.data_store_ key it1 }
    (it1.value, updateLRU s1 key)
  | none => (NULL, s)

/-- The method `StorageEngine::del`. -/
def del (s : StorageEngine) (key : Bytes) : Bool × StorageEngine :=
  match UMap.find s.data_store_ key with
  | some it =>
    let s1 : StorageEngine :=
      { s with current_memory_usage_ := s.current_memory_usage_ - it.size }
    let s2 : StorageEngine :=
      match UMap.find s1.lru_map_ key with
      | some h =>
        { s1 with
          lru_list_ := listErase s1.lru_list_ h
          lru_map_ := UMap.erase s1.lru_map_ key }
      | none => s1
    (true, { s2 with data_store_ := UMap.erase s2.data_store_ key })
  | none => (false, s)

/-! ## Sequences of calls -/

/-- A call of one of the three public mutating operations. -/
inductive Op where
  | set (now : Nat) (key value : Bytes)
  | get (now : Nat) (key : Bytes)
  | del (key : Bytes)
deriving DecidableEq, Repr

/-- The state after one call. -/
def step (s : StorageEngine) : Op → StorageEngine
  | .set now k v => (set s now k v).2
  | .get now k => (get s now k).2
  | .del k => (del s k).2

/-- The state after a sequence of calls. -/
def run (s : StorageEngine) (ops : List Op) : StorageEngine := ops.foldl step s

/-- The states reached from a freshly constructed engine by a finite sequence
of `set`/`get`/`del` calls. -/
def Reachable (s : StorageEngine) : Prop :=
  ∃ (max_memory_size : Nat) (ops : List Op), s = run (StorageEngine.new max_memory_size) ops

/-- The keys held by the nodes of `lru_list_`, front to back. -/
def lruKeys (s : StorageEngine) : List Bytes := s.lru_list_.map LruNode.key

/-- The sum of `len(key) + len(value) + 64` over the entries of a store. -/
def accountedSum (m : List (Bytes × CacheItem)) : Nat :=
  (m.map (fun p => p.1.length + p.2.value.length + 64)).sum

/-- The accounted size of the item that a call of `set` passes, and `0` for
the other calls. -/
def Op.itemSize : Op → Nat
  | .set _ k v => calculateItemSize k v
  | .get _ _ => 0
  | .del _ => 0

/-! ## `RespProtocol` (`src/src_b/resp_protocol.cpp`) -/

/-- The bytes of an ASCII string literal. -/
def ascii (s : String) : Bytes := s.toList.map (fun c => c.toNat.toUInt8)

/-- The state of a `std::istringstream`: the characters that are not yet
extracted, and whether the stream is `good()` (neither `eofbit` nor `failbit`
is set). -/
structure IStream where
  rest : Bytes
  good : Bool
deriving DecidableEq, Repr

/-- The construction `std::istringstream input(buffer)`. -/
def IStream.ofString (buffer : Bytes) : IStream := { rest := buffer, good := true }

/-- The call `std::getline(input, line, '\r')` on an empty `line`: on a stream
that is not good nothing is extracted; otherwise the characters before the
first CR are extracted into `line` and the CR is discarded, or, when there is
no CR, all the characters are extracted and `eofbit` is set. -/
def getlineCR (input : IStream) : Bytes × IStream :=
  if input.good then
    match input.rest.dropWhile (fun c => c != 13) with
    | [] => (input.rest.takeWhile (fun c => c != 13), { rest := [], good := false })
    | _ :: t => (input.rest.takeWhile (fun c => c != 13), { rest := t, good := true })
  else ([], input)

/-- The call `input.get()`, whose result is discarded: one character is
extracted, whatever it is; at the end of the input `eofbit` and `failbit` are
set. -/
def istreamGet (input : IStream) : IStream :=
  if input.good then
    match input.rest with
    | [] => { rest := [], good := false }
    | _ :: t => { rest := t, good := true }
  else input

/-- The method `RespProtocol::readLine`. -/
def readLine (input : IStream) : Bytes × IStream :=
  ((getlineCR input).1, istreamGet (getlineCR input).2)

/-- The method `RespProtocol::parseBulkString`. -/
def parseBulkString (input : IStream) : Bytes × IStream := readLine input

/-- The method `RespProtocol::parseArray`, for `count >= 0` (the loop
`for (int i = 0; i < count; i++)` makes at most `count` iterations). -/
def parseArray : IStream → Nat → List Bytes
  | _, 0 => []
  | input, count + 1 =>
    if (readLine input).1.isEmpty then []
    else if (readLine input).1.head? = some 36 then
      (parseBulkString (readLine input).2).1
        :: parseArray (parseBulkString (readLine input).2).2 count
    else parseArray (readLine input).2 count

/-- The exceptions that `std::stoi` throws. -/
inductive StoiError where
  | invalid_argument
  | out_of_range
deriving DecidableEq, Repr

/-- The function `isspace` of the C locale. -/
def isspace (c : UInt8) : Bool := c == 32 || (9 ≤ c.toNat && c.toNat ≤ 13)

/-- The function `isdigit`. -/
def isdigit (c : UInt8) : Bool := 48 ≤ c.toNat && c.toNat ≤ 57

/-- The value of a sequence of decimal digits. -/
def digitsValue (ds : Bytes) : Nat := ds.foldl (fun acc d => 10 * acc + (d.toNat - 48)) 0

/-- The sign and the digits that `strtol` reads in base 10: leading white
space is skipped, one sign is accepted, and the digits that follow are taken
up to the first other character. -/
def stoiParts (str : Bytes) : Bool × Bytes :=
  match str.dropWhile isspace with
  | 45 :: t => (true, t.takeWhile isdigit)
  | 43 :: t => (false, t.takeWhile isdigit)
  | t => (false, t.takeWhile isdigit)

/-- The function `std::stoi(str)`: it throws `std::invalid_argument` when no
digit can be read and `std::out_of_range` when the value is not an `int`. -/
def stoi (str : Bytes) : Except StoiError Int :=
  if (stoiParts str).2 = [] then Except.error StoiError.invalid_argument
  else
    if (stoiParts str).1 then
      if 2147483648 < digitsValue (stoiParts str).2 then Except.error StoiError.out_of_range
      else Except.ok (-(digitsValue (stoiParts str).2 : Int))
    else
      if 2147483647 < digitsValue (stoiParts str).2 then Except.error StoiError.out_of_range
      else Except.ok (digitsValue (stoiParts str).2 : Int)

/-- The method `RespProtocol::parseRequest`; an exception of `std::stoi` is not
caught and leaves the method. -/
def parseRequest (buffer : Bytes) : Except StoiError (List Bytes) :=
  if (readLine (IStream.ofString buffer)).1.isEmpty then Except.ok []
  else if (readLine (IStream.ofString buffer)).1.head? = some 42 then
    match stoi ((readLine (IStream.ofString buffer)).1.drop 1) with
    | Except.ok count =>
      Except.ok (parseArray (readLine (IStream.ofString buffer)).2 count.toNat)
    | Except.error e => Except.error e
  else Except.ok []

/-- The decimal digits of `n`, most significant first, in front of `acc`;
`fuel` bounds the number of digits. -/
def toDigitsFuel : Nat → Nat → Bytes → Bytes
  | 0, _, acc => acc
  | fuel + 1, n, acc =>
    if n < 10 then (48 + n).toUInt8 :: acc
    else toDigitsFuel fuel (n / 10) ((48 + n % 10).toUInt8 :: acc)

/-- The function `std::to_string` on an unsigned value: its decimal
representation. -/
def to_string (n : Nat) : Bytes := toDigitsFuel (n + 1) n []

/-- The function `std::to_string` on an `int64_t`. -/
def to_string_int64 (num : Int) : Bytes :=
  if num < 0 then 45 :: to_string num.natAbs else to_string num.natAbs

/-- The method `RespProtocol::encodeSimpleString`. -/
def encodeSimpleString (str : Bytes) : Bytes := ascii "+" ++ str ++ ascii "\r\n"

/-- The method `RespProtocol::encodeError`. -/
def encodeError (err : Bytes) : Bytes := ascii "-" ++ err ++ ascii "\r\n"

/-- The method `RespProtocol::encodeInteger`. -/
def encodeInteger (num : Int) : Bytes := ascii ":" ++ to_string_int64 num ++ ascii "\r\n"

/-- The method `RespProtocol::encodeBulkString`. -/
def encodeBulkString (str : Bytes) : Bytes :=
  ascii "$" ++ to_string str.length ++ ascii "\r\n" ++ str ++ ascii "\r\n"

/-- The method `RespProtocol::encodeNull`. -/
def encodeNull : Bytes := ascii "$-1\r\n"

/-- The method `RespProtocol::encodeArray`. -/
def encodeArray (arr : List Bytes) : Bytes :=
  arr.foldl (fun result item => result ++ encodeBulkString item)
    (ascii "*" ++ to_string arr.length ++ ascii "\r\n")

/-! ## `Server` (`src/blink_db_main/server.cpp`) -/

/-- The function `::toupper` of the C locale. -/
def toupper (c : UInt8) : UInt8 :=
  if 97 ≤ c.toNat ∧ c.toNat ≤ 122 then (c.toNat - 32).toUInt8 else c

/-- The method `Server::processCommand` for a registered client: the response
that is passed to `write` (empty when nothing is written) and the engine after
the call; `now` is the reading of the clock in the engine. -/
def processCommand (engine : StorageEngine) (now : Nat) (command : List Bytes) :
    Bytes × StorageEngine :=
  if command.isEmpty then ([], engine)
  else
    if (command.getD 0 []).map toupper = ascii "SET" ∧ command.length ≥ 3 then
      (encodeSimpleString (ascii "OK"),
        (set engine now (command.getD 1 []) (command.getD 2 [])).2)
    else if (command.getD 0 []).map toupper = ascii "CONFIG" then
      (encodeArray [], engine)
    else if (command.getD 0 []).map toupper = ascii "GET" ∧ command.length ≥ 2 then
      (if (get engine now (command.getD 1 [])).1 = NULL then encodeNull
        else encodeBulkString (get engine now (command.getD 1 [])).1,
        (get engine now (command.getD 1 [])).2)
    else if (command.getD 0 []).map toupper = ascii "DEL" ∧ command.length ≥ 2 then
      (if (del engine (command.getD 1 [])).1 then encodeInteger 1 else encodeInteger 0,
        (del engine (command.getD 1 [])).2)
    else
      (encodeError (ascii "ERR unknown command or wrong number of arguments"), engine)

/-- The engine, the inbound buffer of one connection (`ClientContext::buffer`)
and the responses written to its socket, oldest first. -/
structure Connection where
  engine_ : StorageEngine
  buffer : Bytes
  written : List Bytes
deriving DecidableEq, Repr

/-- The body of the loop of `Server::handleClient` after a `read` that
delivers `data`: the data is appended to the buffer and parsed, and when the
command is not empty the buffer is cleared and the command is processed. -/
def handleRead (c : Connection) (now : Nat) (data : Bytes) : Except StoiError Connection :=
  match parseRequest (c.buffer ++ data) with
  | Except.ok command =>
    if !command.isEmpty then
      Except.ok
        { engine_ := (processCommand c.engine_ now command).2
          buffer := []
          written := c.written ++ [(processCommand c.engine_ now command).1] }
    else Except.ok { c with buffer := c.buffer ++ data }
  | Except.error e => Except.error e

/-- The loop of `Server::handleClient` over the successive `read`s that deliver
data, until `read` reports `EAGAIN`; every `read` comes with the reading of the
clock for the command it may complete.  An exception leaves the loop. -/
def handleClient (c : Connection) : List (Nat × Bytes) → Except StoiError Connection
  | [] => Except.ok c
  | (now, data) :: reads =>
    match handleRead c now data with
    | Except.ok c1 => handleClient c1 reads
    | Except.error e => Except.error e

/-! ## Notions used by the contract -/

/-- The key that a call touches, in the state `s` in which it is made: a
`set` touches its key, a `get` touches its key when it finds it, a `del`
touches nothing. -/
def touches (s : StorageEngine) : Op → Option Bytes
  | .set _ k _ => some k
  | .get _ k => if (UMap.find s.data_store_ k).isSome then some k else none
  | .del _ => none

/-- The touch of every call of a sequence made from the state `s`, in the
order of the calls. -/
def touchLog (s : StorageEngine) : List Op → List (Option Bytes)
  | [] => []
  | op :: ops => touches s op :: touchLog (step s op) ops

/-- The position (counted from 1) of the last touch of `k` in a log of
touches, and `0` when `k` is never touched. -/
def lastTouch (log : List (Option Bytes)) (k : Bytes) : Nat :=
  (log.foldl (fun (acc : Nat × Nat) e =>
    (acc.1 + 1, if e = some k then acc.1 + 1 else acc.2)) (0, 0)).2

/-- The `size` field of the entry of `key`, and `0` when there is none. -/
def entrySize (s : StorageEngine) (key : Bytes) : Nat :=
  match UMap.find s.data_store_ key with
  | some it => it.size
  | none => 0

/-- The sum of the sizes of the entries of the `j` least recent keys (the last
`j` keys of `lru_list_`). -/
def suffixSize (s : StorageEngine) (j : Nat) : Nat :=
  (((lruKeys s).reverse.take j).map (entrySize s)).sum

/-- Whether `required_size` fits in the budget once the `j` least recent
entries are removed. -/
def fitsWithout (s : StorageEngine) (required_size j : Nat) : Prop :=
  s.current_memory_usage_ - suffixSize s j + required_size ≤ s.max_memory_size_

/-- The keys of a list are in strictly decreasing order of last touch, and all
of them have been touched. -/
def TouchSorted (log : List (Option Bytes)) (l : List Bytes) : Prop :=
  l.Pairwise (fun a b => lastTouch log b < lastTouch log a) ∧ ∀ k ∈ l, 0 < lastTouch log k

/-- The decimal representation of `n`: its digits in base 10, most significant
first, as the characters `'0'` to `'9'`, and `"0"` for zero. -/
def decimal (n : Nat) : Bytes :=
  if n = 0 then [48] else (Nat.digits 10 n).reverse.map (fun d => (48 + d).toUInt8)

/-- Two bytes are equal or are the two cases of one ASCII letter. -/
def sameLetter (a b : UInt8) : Prop :=
  a = b ∨ (97 ≤ a.toNat ∧ a.toNat ≤ 122 ∧ b.toNat + 32 = a.toNat) ∨
    (97 ≤ b.toNat ∧ b.toNat ≤ 122 ∧ a.toNat + 32 = b.toNat)

/-- Two strings are identical except for the case of their ASCII letters. -/
def sameUpToCase (v w : Bytes) : Prop := List.Forall₂ sameLetter v w

/-! ## The invariant of the engine -/

/-- The part of the invariant that concerns `lru_list_`, `lru_map_` and the
handles: keys and handles are unique, and `lru_map_` maps `k` to `h` exactly
when the node of handle `h` is in `lru_list_` and holds `k`. -/
structure LruInv (l : List LruNode) (m : List (Bytes × Nat)) (nx : Nat) : Prop where
  map_nodup : (UMap.keys m).Nodup
  ids_nodup : (l.map LruNode.id).Nodup
  keys_nodup : (l.map LruNode.key).Nodup
  ids_lt : ∀ n ∈ l, n.id < nx
  handle : ∀ k h, UMap.find m k = some h ↔ { id := h, key := k } ∈ l

/-- The invariant of the engine state: the three containers hold the same
keys, every key once, every handle of `lru_map_` points to the node of its
key, every entry has its accounted size, and `current_memory_usage_` is the
accounted sum. -/
structure Inv (s : StorageEngine) : Prop where
  lru : LruInv s.lru_list_ s.lru_map_ s.next_node_
  ds_nodup : (UMap.keys s.data_store_).Nodup
  ds_lru : ∀ k, k ∈ UMap.keys s.data_store_ ↔ k ∈ lruKeys s
  size_ok : ∀ k it, UMap.find s.data_store_ k = some it →
    it.size = k.length + it.value.length + 64
  usage : s.current_memory_usage_ = accountedSum s.data_store_

/-! ## Lemmas on `UMap` -/

namespace UMap

theorem find_eq_none_iff {V : Type} (m : List (Bytes × V)) (k : Bytes) :
    find m k = none ↔ k ∉ keys m := by
  induction m with
  | nil => simp [find, keys]
  | cons p t ih =>
    obtain ⟨k', v⟩ := p
    by_cases h : k' = k
    · simp [find, keys, h]
    · have h' : ¬ k = k' := fun e => h e.symm
      simp [find, keys, h, h'] at ih ⊢
      exact ih

theorem mem_keys_iff {V : Type} (m : List (Bytes × V)) (k : Bytes) :
    k ∈ keys m ↔ ∃ v, find m k = some v := by
  constructor
  · intro h
    cases hf : find m k with
    | none => exact absurd h ((find_eq_none_iff m k).1 hf)
    | some v => exact ⟨v, rfl⟩
  · rintro ⟨v, hv⟩
    by_contra hn
    rw [(find_eq_none_iff m k).2 hn] at hv
    cases hv

theorem mem_of_find {V : Type} (m : List (Bytes × V)) (k : Bytes) (v : V)
    (h : find m k = some v) : (k, v) ∈ m := by
  induction m with
  | nil => simp [find] at h
  | cons p t ih =>
    obtain ⟨k', v'⟩ := p
    by_cases hk : k' = k
    · simp [find, hk] at h
      simp [hk, h]
    · simp [find, hk] at h
      exact List.mem_cons_of_mem _ (ih h)

theorem find_of_mem {V : Type} (m : List (Bytes × V)) (k : Bytes) (v : V)
    (hnd : (keys m).Nodup) (h : (k, v) ∈ m) : find m k = some v := by
  induction m with
  | nil => simp at h
  | cons p t ih =>
    obtain ⟨k', v'⟩ := p
    have hnd' : k' ∉ keys t ∧ (keys t).Nodup := by simpa [keys] using hnd
    rcases List.mem_cons.1 h with heq | hmem
    · cases heq
      simp [find]
    · have hk : k ∈ keys t := List.mem_map.2 ⟨(k, v), hmem, rfl⟩
      have hne : ¬ k' = k := fun e => hnd'.1 (e ▸ hk)
      simp [find, hne]
      exact ih hnd'.2 hmem

theorem find_erase_ne {V : Type} (m : List (Bytes × V)) (k k' : Bytes) (h : k' ≠ k) :
    find (erase m k) k' = find m k' := by
  induction m with
  | nil => simp [erase, find]
  | cons p t ih =>
    obtain ⟨k0, v0⟩ := p
    by_cases h0 : k0 = k
    · have h2 : ¬ k = k' := fun e => h e.symm
      simp [erase, find, h0, h2]
    · by_cases h1 : k0 = k'
      · subst h1
        simp [erase, find, h0]
      · simp [erase, find, h0, h1, ih]

theorem keys_erase {V : Type} (m : List (Bytes × V)) (k : Bytes) :
    keys (erase m k) = (keys m).erase k := by
  induction m with
  | nil => simp [erase, keys]
  | cons p t ih =>
    obtain ⟨k0, v0⟩ := p
    by_cases h0 : k0 = k
    · simp [erase, keys, h0]
    · have hb : (k0 == k) = false := by simpa using h0
      simp only [keys] at ih
      simp [erase, keys, h0, List.erase_cons, hb, ih]

theorem nodup_erase {V : Type} (m : List (Bytes × V)) (k : Bytes)
    (hnd : (keys m).Nodup) : (keys (erase m k)).Nodup := by
  rw [keys_erase]
  exact hnd.erase k

theorem find_erase_self {V : Type} (m : List (Bytes × V)) (k : Bytes)
    (hnd : (keys m).Nodup) : find (erase m k) k = none := by
  rw [find_eq_none_iff, keys_erase]
  exact hnd.not_mem_erase

theorem mem_keys_erase {V : Type} (m : List (Bytes × V)) (k k' : Bytes)
    (hnd : (keys m).Nodup) : k' ∈ keys (erase m k) ↔ k' ≠ k ∧ k' ∈ keys m := by
  rw [keys_erase]
  exact hnd.mem_erase_iff

theorem find_assign_self {V : Type} (m : List (Bytes × V)) (k : Bytes) (v : V) :
    find (assign m k v) k = some v := by
  induction m with
  | nil => simp [assign, find]
  | cons p t ih =>
    obtain ⟨k0, v0⟩ := p
    by_cases h0 : k0 = k
    · simp [assign, find, h0]
    · simp [assign, find, h0, ih]

theorem find_assign_ne {V : Type} (m : List (Bytes × V)) (k k' : Bytes) (v : V)
    (h : k' ≠ k) : find (assign m k v) k' = find m k' := by
  induction m with
  | nil =>
    have : ¬ k = k' := fun e => h e.symm
    simp [assign, find, this]
  | cons p t ih =>
    obtain ⟨k0, v0⟩ := p
    by_cases h0 : k0 = k
    · have h1 : ¬ k0 = k' := fun e => h (e.symm.trans h0)
      have h2 : ¬ k = k' := fun e => h e.symm
      simp [assign, find, h0, h1, h2]
    · by_cases h1 : k0 = k'
      · subst h1
        simp [assign, find, h0]
      · simp [assign, find, h0, h1, ih]

theorem mem_keys_assign {V : Type} (m : List (Bytes × V)) (k k' : Bytes) (v : V) :
    k' ∈ keys (assign m k v) ↔ k' = k ∨ k' ∈ keys m := by
  by_cases h : k' = k
  · subst h
    simp [mem_keys_iff, find_assign_self]
  · simp [mem_keys_iff, find_assign_ne _ _ _ _ h, h]

theorem nodup_assign {V : Type} (m : List (Bytes × V)) (k : Bytes) (v : V)
    (hnd : (keys m).Nodup) : (keys (assign m k v)).Nodup := by
  induction m with
  | nil => simp [assign, keys]
  | cons p t ih =>
    obtain ⟨k0, v0⟩ := p
    have hnd' : k0 ∉ keys t ∧ (keys t).Nodup := by simpa [keys] using hnd
    by_cases h0 : k0 = k
    · subst h0
      simpa [assign, keys] using hnd
    · have hk : k0 ∉ keys (assign t k v) := by
        rw [mem_keys_assign]
        rintro (e | e)
        · exact h0 e
        · exact hnd'.1 e
      have := ih hnd'.2
      simp only [assign, h0, if_false, keys, List.map_cons, List.nodup_cons]
      exact ⟨hk, this⟩

end UMap

/-! ## Lemmas on the accounted sum -/

theorem accountedSum_erase (m : List (Bytes × CacheItem)) (k : Bytes) (it : CacheItem)
    (h : UMap.find m k = some it) :
    accountedSum (UMap.erase m k) + (k.length + it.value.length + 64) = accountedSum m := by
  induction m with
  | nil => simp [UMap.find] at h
  | cons p t ih =>
    obtain ⟨k0, v0⟩ := p
    by_cases h0 : k0 = k
    · subst h0
      simp [UMap.find] at h
      subst h
      simp [UMap.erase, accountedSum]
      omega
    · simp [UMap.find, h0] at h
      have := ih h
      simp [UMap.erase, accountedSum, h0] at this ⊢
      omega

theorem accountedSum_assign_some (m : List (Bytes × CacheItem)) (k : Bytes)
    (it new : CacheItem) (h : UMap.find m k = some it) :
    accountedSum (UMap.assign m k new) + (k.length + it.value.length + 64)
      = accountedSum m + (k.length + new.value.length + 64) := by
  induction m with
  | nil => simp [UMap.find] at h
  | cons p t ih =>
    obtain ⟨k0, v0⟩ := p
    by_cases h0 : k0 = k
    · subst h0
      simp [UMap.find] at h
      subst h
      simp [UMap.assign, accountedSum]
      omega
    · simp [UMap.find, h0] at h
      have := ih h
      simp [UMap.assign, accountedSum, h0] at this ⊢
      omega

theorem accountedSum_assign_none (m : List (Bytes × CacheItem)) (k : Bytes)
    (new : CacheItem) (h : UMap.find m k = none) :
    accountedSum (UMap.assign m k new)
      = accountedSum m + (k.length + new.value.length + 64) := by
  induction m with
  | nil => simp [UMap.assign, accountedSum]
  | cons p t ih =>
    obtain ⟨k0, v0⟩ := p
    by_cases h0 : k0 = k
    · simp [UMap.find, h0] at h
    · simp [UMap.find, h0] at h
      have := ih h
      simp [UMap.assign, accountedSum, h0] at this ⊢
      omega

theorem accountedSum_ge (m : List (Bytes × CacheItem)) (k : Bytes) (it : CacheItem)
    (h : UMap.find m k = some it) : k.length + it.value.length + 64 ≤ accountedSum m := by
  have := accountedSum_erase m k it h
  omega

/-! ## Lemmas on `lru_list_` -/

theorem listErase_sublist (l : List LruNode) (h : Nat) : (listErase l h).Sublist l := by
  induction l with
  | nil => simp [listErase]
  | cons n t ih =>
    by_cases hn : n.id = h
    · simp [listErase, hn]
    · simp [listErase, hn, ih]

theorem node_eq_of_id (l : List LruNode) (hnd : (l.map LruNode.id).Nodup)
    (a b : LruNode) (ha : a ∈ l) (hb : b ∈ l) (hid : a.id = b.id) : a = b :=
  List.inj_on_of_nodup_map hnd ha hb hid

theorem node_eq_of_key (l : List LruNode) (hnd : (l.map LruNode.key).Nodup)
    (a b : LruNode) (ha : a ∈ l) (hb : b ∈ l) (hk : a.key = b.key) : a = b :=
  List.inj_on_of_nodup_map hnd ha hb hk

theorem mem_listErase (l : List LruNode) (h : Nat) (hnd : (l.map LruNode.id).Nodup)
    (n : LruNode) : n ∈ listErase l h ↔ n ∈ l ∧ n.id ≠ h := by
  induction l with
  | nil => simp [listErase]
  | cons a t ih =>
    have hnd' : a.id ∉ t.map LruNode.id ∧ (t.map LruNode.id).Nodup := by
      simpa using hnd
    by_cases ha : a.id = h
    · simp only [listErase, ha, if_true, List.mem_cons]
      constructor
      · intro hn
        refine ⟨Or.inr hn, fun e => hnd'.1 ?_⟩
        rw [ha, ← e]
        exact List.mem_map.2 ⟨n, hn, rfl⟩
      · rintro ⟨hn | hn, hne⟩
        · exact absurd (hn ▸ ha) hne
        · exact hn
    · simp only [listErase, ha, if_false, List.mem_cons, ih hnd'.2]
      constructor
      · rintro (hn | ⟨hn, hne⟩)
        · exact ⟨Or.inl hn, hn ▸ ha⟩
        · exact ⟨Or.inr hn, hne⟩
      · rintro ⟨hn | hn, hne⟩
        · exact Or.inl hn
        · exact Or.inr ⟨hn, hne⟩

theorem keys_listErase (l : List LruNode) (h : Nat) (k : Bytes)
    (hid : (l.map LruNode.id).Nodup) (hk : (l.map LruNode.key).Nodup)
    (hm : { id := h, key := k } ∈ l) :
    (listErase l h).map LruNode.key = (l.map LruNode.key).erase k := by
  induction l with
  | nil => simp at hm
  | cons a t ih =>
    have hid' : a.id ∉ t.map LruNode.id ∧ (t.map LruNode.id).Nodup := by
      simpa using hid
    have hk' : a.key ∉ t.map LruNode.key ∧ (t.map LruNode.key).Nodup := by
      simpa using hk
    by_cases ha : a.id = h
    · have : a = { id := h, key := k } :=
        node_eq_of_id (a :: t) hid a _ (List.mem_cons_self _ _) hm ha
      subst this
      simp [listErase]
    · have hmt : { id := h, key := k } ∈ t := by
        rcases List.mem_cons.1 hm with e | e
        · exact absurd (by rw [← e]) ha
        · exact e
      have hne : a.key ≠ k := by
        intro e
        apply hk'.1
        rw [e]
        exact List.mem_map.2 ⟨_, hmt, rfl⟩
      have hb : (a.key == k) = false := by simpa using hne
      simp [listErase, ha, List.erase_cons, hb, ih hid'.2 hk'.2 hmt]

theorem LruInv.mem_map_keys_iff {l : List LruNode} {m : List (Bytes × Nat)} {nx : Nat}
    (hi : LruInv l m nx) (k : Bytes) : k ∈ UMap.keys m ↔ k ∈ l.map LruNode.key := by
  rw [UMap.mem_keys_iff]
  constructor
  · rintro ⟨h, hh⟩
    exact List.mem_map.2 ⟨_, (hi.handle k h).1 hh, rfl⟩
  · intro hk
    obtain ⟨n, hn, rfl⟩ := List.mem_map.1 hk
    exact ⟨n.id, (hi.handle n.key n.id).2 hn⟩

theorem LruInv.empty : LruInv [] [] 0 := by
  constructor <;> simp [UMap.keys, UMap.find]

/-- Pushing a key that is not in the list. -/
theorem LruInv.push {l : List LruNode} {m : List (Bytes × Nat)} {nx : Nat}
    (hi : LruInv l m nx) (k : Bytes) (hk : k ∉ l.map LruNode.key) :
    LruInv ({ id := nx, key := k } :: l) (UMap.assign m k nx) (nx + 1) := by
  have hidn : nx ∉ l.map LruNode.id := by
    intro hm
    obtain ⟨n, hn, e⟩ := List.mem_map.1 hm
    have := hi.ids_lt n hn
    omega
  refine ⟨UMap.nodup_assign _ _ _ hi.map_nodup, ?_, ?_, ?_, ?_⟩
  · simpa using ⟨by simpa using hidn, hi.ids_nodup⟩
  · simpa using ⟨by simpa using hk, hi.keys_nodup⟩
  · intro n hn
    rcases List.mem_cons.1 hn with e | e
    · subst e
      simp
    · have := hi.ids_lt n e
      omega
  · intro k' h'
    by_cases hkk : k' = k
    · subst hkk
      rw [UMap.find_assign_self]
      constructor
      · intro e
        cases e
        exact List.mem_cons_self _ _
      · intro hm
        rcases List.mem_cons.1 hm with e | e
        · cases e
          rfl
        · exact absurd (List.mem_map.2 ⟨_, e, rfl⟩) hk
    · rw [UMap.find_assign_ne _ _ _ _ hkk, hi.handle]
      constructor
      · exact fun hm => List.mem_cons_of_mem _ hm
      · intro hm
        rcases List.mem_cons.1 hm with e | e
        · cases e
          exact absurd rfl hkk
        · exact e

/-- Unlinking the node of a key and dropping its handle (`del`). -/
theorem LruInv.erase {l : List LruNode} {m : List (Bytes × Nat)} {nx : Nat}
    (hi : LruInv l m nx) (k : Bytes) (h : Nat) (hf : UMap.find m k = some h) :
    LruInv (listErase l h) (UMap.erase m k) nx := by
  have hsub := listErase_sublist l h
  have hmem : { id := h, key := k } ∈ l := (hi.handle k h).1 hf
  refine ⟨UMap.nodup_erase _ _ hi.map_nodup, hi.ids_nodup.sublist (hsub.map _),
    hi.keys_nodup.sublist (hsub.map _), fun n hn => hi.ids_lt n (hsub.subset hn), ?_⟩
  intro k' h'
  rw [mem_listErase _ _ hi.ids_nodup]
  by_cases hkk : k' = k
  · subst hkk
    rw [UMap.find_erase_self _ _ hi.map_nodup]
    constructor
    · intro e
      cases e
    · rintro ⟨hm, hne⟩
      have := (hi.handle k' h').2 hm
      rw [hf] at this
      cases this
      exact absurd rfl hne
  · rw [UMap.find_erase_ne _ _ _ hkk, hi.handle]
    constructor
    · intro hm
      refine ⟨hm, fun e => hkk ?_⟩
      have := node_eq_of_id l hi.ids_nodup _ _ hm hmem e
      cases this
      rfl
    · exact fun hm => hm.1

/-- Unlinking the node of a key and pushing the key again (`updateLRU`). -/
theorem LruInv.relink {l : List LruNode} {m : List (Bytes × Nat)} {nx : Nat}
    (hi : LruInv l m nx) (k : Bytes) (h : Nat) (hf : UMap.find m k = some h) :
    LruInv ({ id := nx, key := k } :: listErase l h) (UMap.assign m k nx) (nx + 1) := by
  have hsub := listErase_sublist l h
  have hmem : { id := h, key := k } ∈ l := (hi.handle k h).1 hf
  have hidn : nx ∉ (listErase l h).map LruNode.id := by
    intro hm
    obtain ⟨n, hn, e⟩ := List.mem_map.1 hm
    have := hi.ids_lt n (hsub.subset hn)
    omega
  have hkn : k ∉ (listErase l h).map LruNode.key := by
    rw [keys_listErase l h k hi.ids_nodup hi.keys_nodup hmem]
    exact hi.keys_nodup.not_mem_erase
  refine ⟨UMap.nodup_assign _ _ _ hi.map_nodup, ?_, ?_, ?_, ?_⟩
  · simpa using ⟨by simpa using hidn, hi.ids_nodup.sublist (hsub.map _)⟩
  · simpa using ⟨by simpa using hkn, hi.keys_nodup.sublist (hsub.map _)⟩
  · intro n hn
    rcases List.mem_cons.1 hn with e | e
    · subst e
      simp
    · have := hi.ids_lt n (hsub.subset e)
      omega
  · intro k' h'
    by_cases hkk : k' = k
    · subst hkk
      rw [UMap.find_assign_self]
      constructor
      · intro e
        cases e
        exact List.mem_cons_self _ _
      · intro hm
        rcases List.mem_cons.1 hm with e | e
        · cases e
          rfl
        · exact absurd (List.mem_map.2 ⟨_, e, rfl⟩) hkn
    · rw [UMap.find_assign_ne _ _ _ _ hkk, hi.handle, List.mem_cons,
        mem_listErase _ _ hi.ids_nodup]
      constructor
      · intro hm
        refine Or.inr ⟨hm, fun e => hkk ?_⟩
        have := node_eq_of_id l hi.ids_nodup _ _ hm hmem e
        cases this
        rfl
      · rintro (e | e)
        · cases e
          exact absurd rfl hkk
        · exact e.1

theorem eq_dropLast_append_of_getLast? {α : Type} (l : List α) (a : α)
    (h : l.getLast? = some a) : l = l.dropLast ++ [a] := by
  have hne : l ≠ [] := by
    intro e
    simp [e] at h
  have := List.dropLast_append_getLast hne
  rw [List.getLast?_eq_getLast l hne] at h
  cases h
  exact this.symm

/-- Popping the back node and dropping its handle (`evictIfNeeded`). -/
theorem LruInv.popBack {l : List LruNode} {m : List (Bytes × Nat)} {nx : Nat}
    (hi : LruInv l m nx) (n : LruNode) (hl : l.getLast? = some n) :
    LruInv l.dropLast (UMap.erase m n.key) nx := by
  have hsub : l.dropLast.Sublist l := List.dropLast_sublist l
  have hl' := eq_dropLast_append_of_getLast? l n hl
  have hmem : n ∈ l := by
    rw [hl']
    simp
  have hkn : n.key ∉ l.dropLast.map LruNode.key := by
    have := hi.keys_nodup
    rw [hl'] at this
    simp only [List.map_append, List.map_cons, List.map_nil] at this
    intro hm
    exact (List.nodup_append.1 this).2.2 hm (List.mem_singleton_self _)
  refine ⟨UMap.nodup_erase _ _ hi.map_nodup, hi.ids_nodup.sublist (hsub.map _),
    hi.keys_nodup.sublist (hsub.map _), fun a ha => hi.ids_lt a (hsub.subset ha), ?_⟩
  intro k' h'
  by_cases hkk : k' = n.key
  · subst hkk
    rw [UMap.find_erase_self _ _ hi.map_nodup]
    constructor
    · intro e
      cases e
    · intro hm
      exact absurd (List.mem_map.2 ⟨_, hm, rfl⟩) hkn
  · rw [UMap.find_erase_ne _ _ _ hkk, hi.handle]
    constructor
    · intro hm
      rw [hl'] at hm
      rcases List.mem_append.1 hm with e | e
      · exact e
      · simp at e
        subst e
        exact absurd rfl hkk
    · exact fun hm => hsub.subset hm

/-! ## The operations keep the invariant -/

/-- The size of an entry never exceeds `current_memory_usage_`: the
subtractions `current_memory_usage_ -= it->second.size` of `set`, `del` and
`evictIfNeeded` do not go below zero. -/
theorem Inv.size_le_usage {s : StorageEngine} (hi : Inv s) (k : Bytes) (it : CacheItem)
    (hf : UMap.find s.data_store_ k = some it) : it.size ≤ s.current_memory_usage_ := by
  rw [hi.usage, hi.size_ok k it hf]
  exact accountedSum_ge s.data_store_ k it hf

theorem Inv.new (max_memory_size : Nat) : Inv (StorageEngine.new max_memory_size) := by
  refine ⟨LruInv.empty, ?_, ?_, ?_, ?_⟩ <;>
    simp [StorageEngine.new, UMap.keys, lruKeys, UMap.find, accountedSum]

theorem Inv.find_lru_map {s : StorageEngine} (hi : Inv s) (k : Bytes) (it : CacheItem)
    (hf : UMap.find s.data_store_ k = some it) : ∃ h, UMap.find s.lru_map_ k = some h := by
  have h1 : k ∈ UMap.keys s.data_store_ := (UMap.mem_keys_iff _ _).2 ⟨it, hf⟩
  have h2 : k ∈ UMap.keys s.lru_map_ := (hi.lru.mem_map_keys_iff k).2 ((hi.ds_lru k).1 h1)
  exact (UMap.mem_keys_iff _ _).1 h2

theorem updateLRU_data_store (s : StorageEngine) (k : Bytes) :
    (updateLRU s k).data_store_ = s.data_store_ := by
  unfold updateLRU
  cases UMap.find s.lru_map_ k <;> rfl

theorem updateLRU_usage (s : StorageEngine) (k : Bytes) :
    (updateLRU s k).current_memory_usage_ = s.current_memory_usage_ := by
  unfold updateLRU
  cases UMap.find s.lru_map_ k <;> rfl

theorem updateLRU_max (s : StorageEngine) (k : Bytes) :
    (updateLRU s k).max_memory_size_ = s.max_memory_size_ := by
  unfold updateLRU
  cases UMap.find s.lru_map_ k <;> rfl

/-- The effect of `updateLRU` on the recency order: a key of the list moves to
the front, the others keep their order. -/
theorem lruKeys_updateLRU (s : StorageEngine) (k : Bytes)
    (hi : LruInv s.lru_list_ s.lru_map_ s.next_node_) (hk : k ∈ lruKeys s) :
    lruKeys (updateLRU s k) = k :: (lruKeys s).erase k := by
  obtain ⟨h, hh⟩ := (UMap.mem_keys_iff _ _).1 ((hi.mem_map_keys_iff k).2 hk)
  unfold updateLRU
  rw [hh]
  simp only [pushFront, lruKeys, List.map_cons]
  rw [keys_listErase _ h k hi.ids_nodup hi.keys_nodup ((hi.handle k h).1 hh)]

theorem lruKeys_updateLRU_absent (s : StorageEngine) (k : Bytes)
    (hi : LruInv s.lru_list_ s.lru_map_ s.next_node_) (hk : k ∉ lruKeys s) :
    updateLRU s k = s := by
  have : UMap.find s.lru_map_ k = none :=
    (UMap.find_eq_none_iff _ _).2 (fun h => hk ((hi.mem_map_keys_iff k).1 h))
  unfold updateLRU
  rw [this]

theorem LruInv.updateLRU_lru (s : StorageEngine) (k : Bytes)
    (hi : LruInv s.lru_list_ s.lru_map_ s.next_node_) :
    LruInv (updateLRU s k).lru_list_ (updateLRU s k).lru_map_ (updateLRU s k).next_node_ := by
  unfold BlinkDB.updateLRU
  cases hf : UMap.find s.lru_map_ k with
  | none => exact hi
  | some h => exact hi.relink k h hf

theorem mem_lruKeys_updateLRU (s : StorageEngine) (k k' : Bytes)
    (hi : LruInv s.lru_list_ s.lru_map_ s.next_node_) :
    k' ∈ lruKeys (updateLRU s k) ↔ k' ∈ lruKeys s := by
  by_cases hk : k ∈ lruKeys s
  · rw [lruKeys_updateLRU s k hi hk, List.mem_cons]
    have hnd : (lruKeys s).Nodup := hi.keys_nodup
    rw [hnd.mem_erase_iff]
    constructor
    · rintro (e | e)
      · exact e ▸ hk
      · exact e.2
    · intro h
      by_cases e : k' = k
      · exact Or.inl e
      · exact Or.inr ⟨e, h⟩
  · rw [lruKeys_updateLRU_absent s k hi hk]

/-- The method `updateLRU` keeps the invariant. -/
theorem Inv.updateLRU_inv {s : StorageEngine} (hi : Inv s) (k : Bytes) : Inv (updateLRU s k) := by
  refine ⟨LruInv.updateLRU_lru s k hi.lru, ?_, ?_, ?_, ?_⟩
  · rw [updateLRU_data_store]
    exact hi.ds_nodup
  · intro k'
    rw [updateLRU_data_store, mem_lruKeys_updateLRU s k k' hi.lru]
    exact hi.ds_lru k'
  · rw [updateLRU_data_store]
    exact hi.size_ok
  · rw [updateLRU_data_store, updateLRU_usage]
    exact hi.usage

/-- Overwriting the entry of a present key (the writes through `it` of `set`
and `get`) keeps the invariant, when the memory usage is adjusted. -/
theorem Inv.overwrite {s : StorageEngine} (hi : Inv s) (k : Bytes) (it new : CacheItem)
    (hf : UMap.find s.data_store_ k = some it)
    (hsz : new.size = k.length + new.value.length + 64) :
    Inv { s with
      data_store_ := UMap.assign s.data_store_ k new
      current_memory_usage_ := s.current_memory_usage_ - it.size + new.size } := by
  refine ⟨hi.lru, UMap.nodup_assign _ _ _ hi.ds_nodup, ?_, ?_, ?_⟩
  · intro k'
    show k' ∈ UMap.keys (UMap.assign s.data_store_ k new) ↔ k' ∈ lruKeys s
    rw [UMap.mem_keys_assign, ← hi.ds_lru k']
    constructor
    · rintro (e | e)
      · rw [e]
        exact (UMap.mem_keys_iff _ _).2 ⟨it, hf⟩
      · exact e
    · exact fun h => Or.inr h
  · intro k' it' hf'
    by_cases e : k' = k
    · subst e
      have : UMap.find (UMap.assign s.data_store_ k' new) k' = some it' := hf'
      rw [UMap.find_assign_self] at this
      cases this
      exact hsz
    · have : UMap.find (UMap.assign s.data_store_ k new) k' = some it' := hf'
      rw [UMap.find_assign_ne _ _ _ _ e] at this
      exact hi.size_ok k' it' this
  · show s.current_memory_usage_ - it.size + new.size
      = accountedSum (UMap.assign s.data_store_ k new)
    have h1 := accountedSum_assign_some s.data_store_ k it new hf
    have h2 := hi.size_ok k it hf
    have h3 := hi.usage
    have h4 := accountedSum_ge s.data_store_ k it hf
    omega

/-! ## Eviction -/

theorem evictOne_nil (s : StorageEngine) (h : s.lru_list_ = []) : evictOne s = s := by
  unfold evictOne
  rw [h]
  rfl

/-- One iteration of the eviction loop on a state that satisfies the
invariant: the entry of the back key is removed from the three containers and
its size is subtracted. -/
theorem evictOne_eq {s : StorageEngine} (hi : Inv s) (n : LruNode)
    (hl : s.lru_list_.getLast? = some n) :
    ∃ it, UMap.find s.data_store_ n.key = some it ∧
      evictOne s = { s with
        current_memory_usage_ := s.current_memory_usage_ - it.size
        data_store_ := UMap.erase s.data_store_ n.key
        lru_list_ := s.lru_list_.dropLast
        lru_map_ := UMap.erase s.lru_map_ n.key } := by
  have hmem : n.key ∈ lruKeys s := by
    have := eq_dropLast_append_of_getLast? _ _ hl
    unfold lruKeys
    rw [this]
    simp
  obtain ⟨it, hit⟩ := (UMap.mem_keys_iff _ _).1 ((hi.ds_lru n.key).2 hmem)
  refine ⟨it, hit, ?_⟩
  unfold evictOne
  simp only [hl, hit]

theorem Inv.evictOne {s : StorageEngine} (hi : Inv s) : Inv (evictOne s) := by
  cases hl : s.lru_list_.getLast? with
  | none =>
    unfold BlinkDB.evictOne
    rw [hl]
    exact hi
  | some n =>
    obtain ⟨it, hit, he⟩ := evictOne_eq hi n hl
    rw [he]
    have hl' := eq_dropLast_append_of_getLast? _ _ hl
    have hnd : (lruKeys s).Nodup := hi.lru.keys_nodup
    have hkeys : lruKeys s = s.lru_list_.dropLast.map LruNode.key ++ [n.key] := by
      unfold lruKeys
      conv_lhs => rw [hl']
      simp
    refine ⟨hi.lru.popBack n hl, UMap.nodup_erase _ _ hi.ds_nodup, ?_, ?_, ?_⟩
    · intro k'
      show k' ∈ UMap.keys (UMap.erase s.data_store_ n.key)
        ↔ k' ∈ s.lru_list_.dropLast.map LruNode.key
      rw [UMap.mem_keys_erase _ _ _ hi.ds_nodup, hi.ds_lru k', hkeys]
      rw [hkeys] at hnd
      have hdis := (List.nodup_append.1 hnd).2.2
      constructor
      · rintro ⟨hne, hm⟩
        rcases List.mem_append.1 hm with e | e
        · exact e
        · exact absurd (List.mem_singleton.1 e) hne
      · intro hm
        refine ⟨fun e => hdis hm (by simp [e]), List.mem_append_left _ hm⟩
    · intro k' it' hf'
      have hf'' : UMap.find (UMap.erase s.data_store_ n.key) k' = some it' := hf'
      by_cases e : k' = n.key
      · rw [e, UMap.find_erase_self _ _ hi.ds_nodup] at hf''
        cases hf''
      · rw [UMap.find_erase_ne _ _ _ e] at hf''
        exact hi.size_ok k' it' hf''
    · show s.current_memory_usage_ - it.size = accountedSum (UMap.erase s.data_store_ n.key)
      have h1 := accountedSum_erase s.data_store_ n.key it hit
      have h2 := hi.size_ok n.key it hit
      have h3 := hi.usage
      omega

theorem Inv.evictLoop (required_size : Nat) (fuel : Nat) {s : StorageEngine} (hi : Inv s) :
    Inv (evictLoop required_size fuel s) := by
  induction fuel generalizing s with
  | zero => exact hi
  | succ n ih =>
    unfold BlinkDB.evictLoop
    by_cases hc : evictCond s required_size = true
    · rw [if_pos hc]
      exact ih hi.evictOne
    · rw [if_neg hc]
      exact hi

theorem Inv.evictIfNeeded {s : StorageEngine} (hi : Inv s) (required_size : Nat) :
    Inv (evictIfNeeded s required_size) :=
  hi.evictLoop required_size _

theorem evictOne_some_none (s : StorageEngine) (n : LruNode)
    (hl : s.lru_list_.getLast? = some n) (hf : UMap.find s.data_store_ n.key = none) :
    evictOne s = { s with
      lru_list_ := s.lru_list_.dropLast
      lru_map_ := UMap.erase s.lru_map_ n.key } := by
  unfold evictOne
  simp only [hl, hf]

theorem evictOne_some_some (s : StorageEngine) (n : LruNode) (it : CacheItem)
    (hl : s.lru_list_.getLast? = some n) (hf : UMap.find s.data_store_ n.key = some it) :
    evictOne s = { s with
      current_memory_usage_ := s.current_memory_usage_ - it.size
      data_store_ := UMap.erase s.data_store_ n.key
      lru_list_ := s.lru_list_.dropLast
      lru_map_ := UMap.erase s.lru_map_ n.key } := by
  unfold evictOne
  simp only [hl, hf]

theorem evictOne_length (s : StorageEngine) :
    (evictOne s).lru_list_.length = s.lru_list_.length - 1 := by
  cases hl : s.lru_list_.getLast? with
  | none =>
    have : s.lru_list_ = [] := List.getLast?_eq_none_iff.1 hl
    rw [evictOne_nil s this, this]
    rfl
  | some n =>
    cases hf : UMap.find s.data_store_ n.key with
    | none => simp [evictOne_some_none s n hl hf]
    | some it => simp [evictOne_some_some s n it hl hf]

/-- The fuel given to the loop is enough: when `evictLoop` stops, the
condition of the `while` is false. -/
theorem evictLoop_exits (required_size : Nat) (fuel : Nat) (s : StorageEngine)
    (hf : s.lru_list_.length ≤ fuel) :
    evictCond (evictLoop required_size fuel s) required_size = false := by
  induction fuel generalizing s with
  | zero =>
    have : s.lru_list_ = [] := List.length_eq_zero.1 (Nat.le_zero.1 hf)
    simp [evictLoop, evictCond, this]
  | succ n ih =>
    unfold evictLoop
    by_cases hc : evictCond s required_size = true
    · rw [if_pos hc]
      apply ih
      rw [evictOne_length]
      omega
    · rw [if_neg hc]
      simpa using hc

/-- The loop of `evictIfNeeded` terminates with its condition false: the
recency list is empty or the required size fits. -/
theorem evictIfNeeded_exits (s : StorageEngine) (required_size : Nat) :
    evictCond (evictIfNeeded s required_size) required_size = false :=
  evictLoop_exits required_size _ s (Nat.le_refl _)

theorem evictOne_max (s : StorageEngine) :
    (evictOne s).max_memory_size_ = s.max_memory_size_ := by
  cases hl : s.lru_list_.getLast? with
  | none => rw [evictOne_nil s (List.getLast?_eq_none_iff.1 hl)]
  | some n =>
    cases hf : UMap.find s.data_store_ n.key with
    | none => rw [evictOne_some_none s n hl hf]
    | some it => rw [evictOne_some_some s n it hl hf]

theorem evictLoop_max (required_size : Nat) (fuel : Nat) (s : StorageEngine) :
    (evictLoop required_size fuel s).max_memory_size_ = s.max_memory_size_ := by
  induction fuel generalizing s with
  | zero => rfl
  | succ n ih =>
    unfold evictLoop
    by_cases hc : evictCond s required_size = true
    · rw [if_pos hc, ih, evictOne_max]
    · rw [if_neg hc]

theorem evictOne_find_none (s : StorageEngine) (k : Bytes)
    (h : UMap.find s.data_store_ k = none) : UMap.find (evictOne s).data_store_ k = none := by
  rw [UMap.find_eq_none_iff] at h ⊢
  cases hl : s.lru_list_.getLast? with
  | none =>
    rw [evictOne_nil s (List.getLast?_eq_none_iff.1 hl)]
    exact h
  | some n =>
    cases hf : UMap.find s.data_store_ n.key with
    | none =>
      rw [evictOne_some_none s n hl hf]
      exact h
    | some it =>
      rw [evictOne_some_some s n it hl hf]
      show k ∉ UMap.keys (UMap.erase s.data_store_ n.key)
      rw [UMap.keys_erase]
      exact fun hm => h (List.mem_of_mem_erase hm)

theorem evictLoop_find_none (required_size : Nat) (fuel : Nat) (s : StorageEngine) (k : Bytes)
    (h : UMap.find s.data_store_ k = none) :
    UMap.find (evictLoop required_size fuel s).data_store_ k = none := by
  induction fuel generalizing s with
  | zero => exact h
  | succ n ih =>
    unfold evictLoop
    by_cases hc : evictCond s required_size = true
    · rw [if_pos hc]
      exact ih _ (evictOne_find_none s k h)
    · rw [if_neg hc]
      exact h

/-! ## The three public operations -/

theorem set_of_present (s : StorageEngine) (now : Nat) (k v : Bytes) (it : CacheItem)
    (hf : UMap.find s.data_store_ k = some it) :
    set s now k v = (true, updateLRU { s with
      current_memory_usage_ := s.current_memory_usage_ - it.size + calculateItemSize k v
      data_store_ := UMap.assign s.data_store_ k
        { value := v, last_accessed := now, size := calculateItemSize k v } } k) := by
  unfold set
  simp only [hf]

theorem set_of_absent (s : StorageEngine) (now : Nat) (k v : Bytes)
    (hf : UMap.find s.data_store_ k = none) :
    set s now k v = (true, pushFront { evictIfNeeded s (calculateItemSize k v) with
      data_store_ := UMap.assign (evictIfNeeded s (calculateItemSize k v)).data_store_ k
        { value := v, last_accessed := now, size := calculateItemSize k v }
      current_memory_usage_ :=
        (evictIfNeeded s (calculateItemSize k v)).current_memory_usage_
          + calculateItemSize k v } k) := by
  unfold set
  simp only [hf]

theorem get_of_present (s : StorageEngine) (now : Nat) (k : Bytes) (it : CacheItem)
    (hf : UMap.find s.data_store_ k = some it) :
    get s now k = (it.value, updateLRU { s with
      data_store_ := UMap.assign s.data_store_ k { it with last_accessed := now } } k) := by
  unfold get
  simp only [hf]

theorem get_of_absent (s : StorageEngine) (now : Nat) (k : Bytes)
    (hf : UMap.find s.data_store_ k = none) : get s now k = (NULL, s) := by
  unfold get
  simp only [hf]

theorem del_of_present (s : StorageEngine) (k : Bytes) (it : CacheItem) (h : Nat)
    (hf : UMap.find s.data_store_ k = some it) (hh : UMap.find s.lru_map_ k = some h) :
    del s k = (true, { s with
      current_memory_usage_ := s.current_memory_usage_ - it.size
      lru_list_ := listErase s.lru_list_ h
      lru_map_ := UMap.erase s.lru_map_ k
      data_store_ := UMap.erase s.data_store_ k }) := by
  unfold del
  simp only [hf, hh]

theorem del_of_absent (s : StorageEngine) (k : Bytes)
    (hf : UMap.find s.data_store_ k = none) : del s k = (false, s) := by
  unfold del
  simp only [hf]

/-- The insertion of a key that is in none of the containers keeps the
invariant (the end of the insert branch of `set`). -/
theorem Inv.insert {s : StorageEngine} (hi : Inv s) (k : Bytes) (new : CacheItem)
    (hf : UMap.find s.data_store_ k = none)
    (hsz : new.size = k.length + new.value.length + 64) :
    Inv (pushFront { s with
      data_store_ := UMap.assign s.data_store_ k new
      current_memory_usage_ := s.current_memory_usage_ + new.size } k) := by
  have hk : k ∉ lruKeys s := fun h =>
    (UMap.find_eq_none_iff _ _).1 hf ((hi.ds_lru k).2 h)
  refine ⟨hi.lru.push k hk, UMap.nodup_assign _ _ _ hi.ds_nodup, ?_, ?_, ?_⟩
  · intro k'
    show k' ∈ UMap.keys (UMap.assign s.data_store_ k new) ↔ k' ∈ k :: lruKeys s
    rw [UMap.mem_keys_assign, List.mem_cons, hi.ds_lru k']
  · intro k' it' hf'
    have hf'' : UMap.find (UMap.assign s.data_store_ k new) k' = some it' := hf'
    by_cases e : k' = k
    · subst e
      rw [UMap.find_assign_self] at hf''
      cases hf''
      exact hsz
    · rw [UMap.find_assign_ne _ _ _ _ e] at hf''
      exact hi.size_ok k' it' hf''
  · show s.current_memory_usage_ + new.size = accountedSum (UMap.assign s.data_store_ k new)
    rw [accountedSum_assign_none _ _ _ hf, hi.usage, hsz]

theorem Inv.set {s : StorageEngine} (hi : Inv s) (now : Nat) (k v : Bytes) :
    Inv (set s now k v).2 := by
  cases hf : UMap.find s.data_store_ k with
  | some it =>
    rw [set_of_present s now k v it hf]
    exact (hi.overwrite k it { value := v, last_accessed := now, size := calculateItemSize k v }
      hf rfl).updateLRU_inv k
  | none =>
    rw [set_of_absent s now k v hf]
    exact (hi.evictIfNeeded (calculateItemSize k v)).insert k
      { value := v, last_accessed := now, size := calculateItemSize k v }
      (evictLoop_find_none _ _ s k hf) rfl

theorem Inv.get {s : StorageEngine} (hi : Inv s) (now : Nat) (k : Bytes) :
    Inv (get s now k).2 := by
  cases hf : UMap.find s.data_store_ k with
  | some it =>
    rw [get_of_present s now k it hf]
    have h1 := hi.overwrite k it { it with last_accessed := now } hf (hi.size_ok k it hf)
    have h2 := accountedSum_ge s.data_store_ k it hf
    have h3 := hi.usage
    have h4 := hi.size_ok k it hf
    have h5 : s.current_memory_usage_ - it.size + it.size = s.current_memory_usage_ := by
      omega
    simp only [h5] at h1
    exact h1.updateLRU_inv k
  | none =>
    rw [get_of_absent s now k hf]
    exact hi

theorem Inv.del {s : StorageEngine} (hi : Inv s) (k : Bytes) : Inv (del s k).2 := by
  cases hf : UMap.find s.data_store_ k with
  | some it =>
    obtain ⟨h, hh⟩ := hi.find_lru_map k it hf
    rw [del_of_present s k it h hf hh]
    refine ⟨hi.lru.erase k h hh, UMap.nodup_erase _ _ hi.ds_nodup, ?_, ?_, ?_⟩
    · intro k'
      show k' ∈ UMap.keys (UMap.erase s.data_store_ k)
        ↔ k' ∈ (listErase s.lru_list_ h).map LruNode.key
      rw [keys_listErase _ h k hi.lru.ids_nodup hi.lru.keys_nodup ((hi.lru.handle k h).1 hh),
        UMap.mem_keys_erase _ _ _ hi.ds_nodup, hi.ds_lru k']
      exact (List.Nodup.mem_erase_iff hi.lru.keys_nodup).symm
    · intro k' it' hf'
      have hf'' : UMap.find (UMap.erase s.data_store_ k) k' = some it' := hf'
      by_cases e : k' = k
      · rw [e, UMap.find_erase_self _ _ hi.ds_nodup] at hf''
        cases hf''
      · rw [UMap.find_erase_ne _ _ _ e] at hf''
        exact hi.size_ok k' it' hf''
    · show s.current_memory_usage_ - it.size = accountedSum (UMap.erase s.data_store_ k)
      have h1 := accountedSum_erase s.data_store_ k it hf
      have h2 := hi.size_ok k it hf
      have h3 := hi.usage
      omega
  | none =>
    rw [del_of_absent s k hf]
    exact hi

theorem Inv.step_inv {s : StorageEngine} (hi : Inv s) (op : Op) : Inv (step s op) := by
  cases op with
  | set now k v => exact hi.set now k v
  | get now k => exact hi.get now k
  | del k => exact hi.del k

theorem Inv.run {s : StorageEngine} (hi : Inv s) (ops : List Op) : Inv (run s ops) := by
  induction ops generalizing s with
  | nil => exact hi
  | cons op t ih => exact ih (hi.step_inv op)

theorem Inv.of_reachable {s : StorageEngine} (h : Reachable s) : Inv s := by
  obtain ⟨m, ops, rfl⟩ := h
  exact (Inv.new m).run ops

theorem Reachable.step_reachable {s : StorageEngine} (h : Reachable s) (op : Op) :
    Reachable (step s op) := by
  obtain ⟨m, ops, rfl⟩ := h
  exact ⟨m, ops ++ [op], by simp [run, List.foldl_append]⟩

/-! ## The contract of the engine -/

/-- C1: for every `max_memory_size` and every finite sequence of
`set`/`get`/`del` calls on a freshly constructed engine (hence after each
call of the sequence), `getMemoryUsage()` is the sum over the entries of
`data_store_` of `len(key) + len(value) + 64`, the keys of `data_store_` are
pairwise distinct, and the `size` field of every entry is
`len(key) + len(value) + 64`. -/
theorem C1_memory_usage_is_accounted_sum (max_memory_size : Nat) (ops : List Op) :
    getMemoryUsage (run (StorageEngine.new max_memory_size) ops)
        = accountedSum (run (StorageEngine.new max_memory_size) ops).data_store_ ∧
      (UMap.keys (run (StorageEngine.new max_memory_size) ops).data_store_).Nodup ∧
      ∀ p ∈ (run (StorageEngine.new max_memory_size) ops).data_store_,
        p.2.size = p.1.length + p.2.value.length + 64 := by
  have hi := (Inv.new max_memory_size).run ops
  refine ⟨hi.usage, hi.ds_nodup, ?_⟩
  rintro ⟨k, it⟩ hp
  exact hi.size_ok k it (UMap.find_of_mem _ k it hi.ds_nodup hp)

/-- C2: for every finite sequence of `set`/`get`/`del` calls on a freshly
constructed engine (hence after each call of the sequence), `data_store_`,
`lru_map_` and `lru_list_` hold the same keys, `lru_list_` holds no key twice,
and the iterator that `lru_map_` stores for a key is the one of the node of
`lru_list_` that holds this key. -/
theorem C2_containers_hold_the_same_keys (max_memory_size : Nat) (ops : List Op) :
    (∀ k, k ∈ UMap.keys (run (StorageEngine.new max_memory_size) ops).data_store_
        ↔ k ∈ UMap.keys (run (StorageEngine.new max_memory_size) ops).lru_map_) ∧
      (∀ k, k ∈ UMap.keys (run (StorageEngine.new max_memory_size) ops).lru_map_
        ↔ k ∈ lruKeys (run (StorageEngine.new max_memory_size) ops)) ∧
      (lruKeys (run (StorageEngine.new max_memory_size) ops)).Nodup ∧
      ∀ k h, UMap.find (run (StorageEngine.new max_memory_size) ops).lru_map_ k = some h
        ↔ { id := h, key := k } ∈ (run (StorageEngine.new max_memory_size) ops).lru_list_ := by
  have hi := (Inv.new max_memory_size).run ops
  refine ⟨fun k => ?_, fun k => hi.lru.mem_map_keys_iff k, hi.lru.keys_nodup, hi.lru.handle⟩
  rw [hi.ds_lru k]
  exact (hi.lru.mem_map_keys_iff k).symm

/-- C3 (evaluation of the code where the claim fails): with
`max_memory_size = 130`, after `set("\x01", "")`, `set("\x02", "")`, and
`set("\x01", "\x00")`, in which every item has an accounted size of at most
`66`, the last `set` returns with `getMemoryUsage() = 131 > 130`: the branch of
`set` for a present key grows the entry without evicting anything. -/
theorem C3_update_exceeds_budget :
    (∀ op ∈ [Op.set 0 [1] [], Op.set 1 [2] [], Op.set 2 [1] [0]], op.itemSize ≤ 130) ∧
      getMemoryUsage (run (StorageEngine.new 130)
        [Op.set 0 [1] [], Op.set 1 [2] [], Op.set 2 [1] [0]]) = 131 := by
  decide

theorem pushFront_data_store (s : StorageEngine) (k : Bytes) :
    (pushFront s k).data_store_ = s.data_store_ := rfl

/-- The entry of `key` after `set(key, value)`. -/
theorem set_find_self (s : StorageEngine) (now : Nat) (k v : Bytes) :
    UMap.find (set s now k v).2.data_store_ k
      = some { value := v, last_accessed := now, size := calculateItemSize k v } := by
  cases hf : UMap.find s.data_store_ k with
  | some it =>
    rw [set_of_present s now k v it hf]
    simp only [updateLRU_data_store]
    exact UMap.find_assign_self _ _ _
  | none =>
    rw [set_of_absent s now k v hf]
    simp only [pushFront_data_store]
    exact UMap.find_assign_self _ _ _

theorem set_usage_ge (s : StorageEngine) (now : Nat) (k v : Bytes) :
    calculateItemSize k v ≤ (set s now k v).2.current_memory_usage_ := by
  cases hf : UMap.find s.data_store_ k with
  | some it =>
    rw [set_of_present s now k v it hf]
    simp only [updateLRU_usage]
    omega
  | none =>
    rw [set_of_absent s now k v hf]
    show _ ≤ (evictIfNeeded s (calculateItemSize k v)).current_memory_usage_ + _
    omega

theorem set_fst (s : StorageEngine) (now : Nat) (k v : Bytes) : (set s now k v).1 = true := by
  unfold set
  cases UMap.find s.data_store_ k <;> rfl

theorem get_set_self (s : StorageEngine) (now now' : Nat) (k v : Bytes) :
    (get (set s now k v).2 now' k).1 = v := by
  rw [get_of_present _ now' k _ (set_find_self s now k v)]

/-- C4: for every engine state (reachable or not), every key `k` and every
value `v`, `set(k, v)` returns `true` and a `get(k)` that follows it
immediately returns exactly `v`. -/
theorem C4_get_after_set (s : StorageEngine) (now now' : Nat) (k v : Bytes) :
    (set s now k v).1 = true ∧ (get (set s now k v).2 now' k).1 = v :=
  ⟨set_fst s now k v, get_set_self s now now' k v⟩

/-- C5: for every engine state (reachable or not), key `k` and values `v1`,
`v2`: after `set(k, v1)` followed by `set(k, v2)`, `get(k)` returns `v2`, the
entry stored for `k` has the value `v2` and the size `len(k) + len(v2) + 64`,
and `getMemoryUsage()` after the second `set` is the one after the first `set`
with `len(k) + len(v1) + 64` replaced by `len(k) + len(v2) + 64`. -/
theorem C5_overwrite_replaces_size (s : StorageEngine) (now1 now2 now3 : Nat)
    (k v1 v2 : Bytes) :
    (get (set (set s now1 k v1).2 now2 k v2).2 now3 k).1 = v2 ∧
      (∃ it, UMap.find (set (set s now1 k v1).2 now2 k v2).2.data_store_ k = some it ∧
        it.value = v2 ∧ it.size = k.length + v2.length + 64) ∧
      getMemoryUsage (set (set s now1 k v1).2 now2 k v2).2 + (k.length + v1.length + 64)
        = getMemoryUsage (set s now1 k v1).2 + (k.length + v2.length + 64) := by
  refine ⟨get_set_self _ now2 now3 k v2, ⟨_, set_find_self _ now2 k v2, rfl, rfl⟩, ?_⟩
  have h1 := set_find_self s now1 k v1
  have h2 := set_usage_ge s now1 k v1
  rw [set_of_present _ now2 k v2 _ h1]
  simp only [getMemoryUsage, updateLRU_usage, calculateItemSize, OVERHEAD_PER_ENTRY] at h2 ⊢
  omega

/-! ## What the eviction loop removes -/

theorem lruKeys_evictOne (s : StorageEngine) :
    lruKeys (evictOne s) = (lruKeys s).dropLast := by
  cases hl : s.lru_list_.getLast? with
  | none =>
    have h0 : s.lru_list_ = [] := List.getLast?_eq_none_iff.1 hl
    rw [evictOne_nil s h0]
    simp [lruKeys, h0]
  | some n =>
    cases hf : UMap.find s.data_store_ n.key with
    | none =>
      rw [evictOne_some_none s n hl hf]
      simp [lruKeys]
    | some it =>
      rw [evictOne_some_some s n it hl hf]
      simp [lruKeys]

theorem lruKeys_eq_of_getLast? (s : StorageEngine) (n : LruNode)
    (hl : s.lru_list_.getLast? = some n) :
    lruKeys s = lruKeys (evictOne s) ++ [n.key] := by
  rw [lruKeys_evictOne]
  have := eq_dropLast_append_of_getLast? _ _ hl
  unfold lruKeys
  conv_lhs => rw [this]
  simp

theorem evictOne_usage {s : StorageEngine} (hi : Inv s) (n : LruNode)
    (hl : s.lru_list_.getLast? = some n) :
    (evictOne s).current_memory_usage_ = s.current_memory_usage_ - entrySize s n.key := by
  obtain ⟨it, hit, he⟩ := evictOne_eq hi n hl
  rw [he]
  simp [entrySize, hit]

theorem evictOne_find_ne {s : StorageEngine} (hi : Inv s) (n : LruNode)
    (hl : s.lru_list_.getLast? = some n) (k : Bytes) (hne : k ≠ n.key) :
    UMap.find (evictOne s).data_store_ k = UMap.find s.data_store_ k := by
  obtain ⟨it, hit, he⟩ := evictOne_eq hi n hl
  rw [he]
  exact UMap.find_erase_ne _ _ _ hne

theorem ne_last_of_mem_evictOne {s : StorageEngine} (hi : Inv s) (n : LruNode)
    (hl : s.lru_list_.getLast? = some n) (k : Bytes) (hk : k ∈ lruKeys (evictOne s)) :
    k ≠ n.key := by
  have hnd : (lruKeys s).Nodup := hi.lru.keys_nodup
  rw [lruKeys_eq_of_getLast? s n hl] at hnd
  intro e
  exact (List.nodup_append.1 hnd).2.2 hk (by simp [e])

theorem suffixSize_zero (s : StorageEngine) : suffixSize s 0 = 0 := by
  simp [suffixSize]

theorem suffixSize_succ {s : StorageEngine} (hi : Inv s) (n : LruNode)
    (hl : s.lru_list_.getLast? = some n) (j : Nat) :
    suffixSize s (j + 1) = entrySize s n.key + suffixSize (evictOne s) j := by
  unfold suffixSize
  rw [lruKeys_eq_of_getLast? s n hl]
  simp only [List.reverse_append, List.reverse_cons, List.reverse_nil, List.nil_append,
    List.singleton_append, List.take_succ_cons, List.map_cons, List.sum_cons]
  congr 1
  congr 1
  apply List.map_congr_left
  intro k hk
  have hk' : k ∈ lruKeys (evictOne s) := List.mem_reverse.1 (List.mem_of_mem_take hk)
  have hne := ne_last_of_mem_evictOne hi n hl k hk'
  unfold entrySize
  rw [evictOne_find_ne hi n hl k hne]

theorem getLast?_of_evictCond (s : StorageEngine) (req : Nat)
    (hc : evictCond s req = true) :
    (∃ n, s.lru_list_.getLast? = some n) ∧
      s.max_memory_size_ < s.current_memory_usage_ + req := by
  unfold evictCond at hc
  simp only [Bool.and_eq_true, Bool.not_eq_true', decide_eq_true_eq] at hc
  refine ⟨?_, hc.2⟩
  cases hl : s.lru_list_.getLast? with
  | none =>
    have h0 : s.lru_list_ = [] := List.getLast?_eq_none_iff.1 hl
    rw [h0] at hc
    simp at hc
  | some n => exact ⟨n, rfl⟩

/-- What `evictLoop` does on a state that satisfies the invariant: for some
`j`, it removes the `j` least recent keys and subtracts their sizes, it leaves
the entries of the other keys as they are, and for no `j' < j` does the
required size fit once the `j'` least recent entries are removed. -/
theorem evictLoop_spec (req : Nat) (fuel : Nat) (s : StorageEngine) (hi : Inv s) :
    ∃ j, j ≤ (lruKeys s).length ∧
      lruKeys (evictLoop req fuel s) = (lruKeys s).take ((lruKeys s).length - j) ∧
      (evictLoop req fuel s).current_memory_usage_
        = s.current_memory_usage_ - suffixSize s j ∧
      (∀ k ∈ lruKeys (evictLoop req fuel s),
        UMap.find (evictLoop req fuel s).data_store_ k = UMap.find s.data_store_ k) ∧
      ∀ j', j' < j → ¬ fitsWithout s req j' := by
  induction fuel generalizing s with
  | zero =>
    refine ⟨0, Nat.zero_le _, ?_, ?_, fun _ _ => rfl, fun j' hj' => absurd hj' (Nat.not_lt_zero _)⟩
    · simp [evictLoop]
    · simp [evictLoop, suffixSize_zero]
  | succ m ih =>
    by_cases hc : evictCond s req = true
    · obtain ⟨⟨n, hl⟩, hgt⟩ := getLast?_of_evictCond s req hc
      obtain ⟨j1, hj1, hkeys, hcur, hfind, hmin⟩ := ih (evictOne s) hi.evictOne
      have hL := lruKeys_eq_of_getLast? s n hl
      have hlen : (lruKeys s).length = (lruKeys (evictOne s)).length + 1 := by
        rw [hL]
        simp
      have hloop : evictLoop req (m + 1) s = evictLoop req m (evictOne s) := by
        conv_lhs => unfold evictLoop
        rw [if_pos hc]
      rw [hloop]
      refine ⟨j1 + 1, by omega, ?_, ?_, ?_, ?_⟩
      · rw [hkeys, hlen]
        conv_rhs => rw [hL]
        have : (lruKeys (evictOne s)).length + 1 - (j1 + 1)
            = (lruKeys (evictOne s)).length - j1 := by omega
        rw [this, List.take_append_of_le_length (Nat.sub_le _ _)]
      · rw [hcur, evictOne_usage hi n hl, suffixSize_succ hi n hl j1]
        omega
      · intro k hk
        rw [hfind k hk]
        apply evictOne_find_ne hi n hl
        apply ne_last_of_mem_evictOne hi n hl
        rw [hkeys] at hk
        exact List.mem_of_mem_take hk
      · intro j' hj'
        cases j' with
        | zero =>
          unfold fitsWithout
          rw [suffixSize_zero]
          omega
        | succ j'' =>
          have := hmin j'' (by omega)
          unfold fitsWithout at this ⊢
          rw [suffixSize_succ hi n hl j'']
          rw [evictOne_usage hi n hl, evictOne_max] at this
          omega
    · have hloop : evictLoop req (m + 1) s = s := by
        conv_lhs => unfold evictLoop
        rw [if_neg hc]
      rw [hloop]
      refine ⟨0, Nat.zero_le _, ?_, ?_, fun _ _ => rfl,
        fun j' hj' => absurd hj' (Nat.not_lt_zero _)⟩
      · simp
      · simp [suffixSize_zero]

/-- What `evictIfNeeded` does on a state that satisfies the invariant: it
removes the shortest least-recent suffix of `lru_list_` after whose removal
the required size fits, or the whole list when there is none. -/
theorem evictIfNeeded_spec (req : Nat) (s : StorageEngine) (hi : Inv s) :
    ∃ j, j ≤ (lruKeys s).length ∧
      lruKeys (evictIfNeeded s req) = (lruKeys s).take ((lruKeys s).length - j) ∧
      (evictIfNeeded s req).current_memory_usage_
        = s.current_memory_usage_ - suffixSize s j ∧
      (∀ k ∈ lruKeys (evictIfNeeded s req),
        UMap.find (evictIfNeeded s req).data_store_ k = UMap.find s.data_store_ k) ∧
      (∀ k, k ∉ lruKeys (evictIfNeeded s req) →
        UMap.find (evictIfNeeded s req).data_store_ k = none) ∧
      (∀ j', j' < j → ¬ fitsWithout s req j') ∧
      (fitsWithout s req j ∨ j = (lruKeys s).length) := by
  obtain ⟨j, hj, hkeys, hcur, hfind, hmin⟩ := evictLoop_spec req s.lru_list_.length s hi
  have hi' := hi.evictIfNeeded req
  refine ⟨j, hj, hkeys, hcur, hfind, ?_, hmin, ?_⟩
  · intro k hk
    rw [UMap.find_eq_none_iff, hi'.ds_lru]
    exact hk
  · have hex := evictIfNeeded_exits s req
    unfold evictCond at hex
    simp only [Bool.and_eq_false_imp, Bool.not_eq_true', decide_eq_false_iff_not] at hex
    by_cases hemp : (evictIfNeeded s req).lru_list_ = []
    · right
      have h0 : lruKeys (evictIfNeeded s req) = [] := by simp [lruKeys, hemp]
      have hkeys' : lruKeys (evictIfNeeded s req)
          = (lruKeys s).take ((lruKeys s).length - j) := hkeys
      rw [h0] at hkeys'
      have := congrArg List.length hkeys'
      simp at this
      omega
    · left
      have h1 : (evictIfNeeded s req).lru_list_.isEmpty = false := by
        cases hh : (evictIfNeeded s req).lru_list_ with
        | nil => exact absurd hh hemp
        | cons a t => rfl
      have h2 := hex h1
      have hcur' : (evictIfNeeded s req).current_memory_usage_
          = s.current_memory_usage_ - suffixSize s j := hcur
      have hmax : (evictIfNeeded s req).max_memory_size_ = s.max_memory_size_ :=
        evictLoop_max _ _ _
      unfold fitsWithout
      rw [hcur', hmax] at h2
      omega

/-! ## The recency order after each operation -/

theorem lruKeys_set_present {s : StorageEngine} (hi : Inv s) (now : Nat) (k v : Bytes)
    (it : CacheItem) (hf : UMap.find s.data_store_ k = some it) :
    lruKeys (set s now k v).2 = k :: (lruKeys s).erase k := by
  have hk : k ∈ lruKeys s := (hi.ds_lru k).1 ((UMap.mem_keys_iff _ _).2 ⟨it, hf⟩)
  rw [set_of_present s now k v it hf]
  exact lruKeys_updateLRU _ k hi.lru hk

theorem lruKeys_set_absent (s : StorageEngine) (now : Nat) (k v : Bytes)
    (hf : UMap.find s.data_store_ k = none) :
    lruKeys (set s now k v).2 = k :: lruKeys (evictIfNeeded s (calculateItemSize k v)) := by
  rw [set_of_absent s now k v hf]
  rfl

theorem lruKeys_get_present {s : StorageEngine} (hi : Inv s) (now : Nat) (k : Bytes)
    (it : CacheItem) (hf : UMap.find s.data_store_ k = some it) :
    lruKeys (get s now k).2 = k :: (lruKeys s).erase k := by
  have hk : k ∈ lruKeys s := (hi.ds_lru k).1 ((UMap.mem_keys_iff _ _).2 ⟨it, hf⟩)
  rw [get_of_present s now k it hf]
  exact lruKeys_updateLRU _ k hi.lru hk

theorem lruKeys_del_present {s : StorageEngine} (hi : Inv s) (k : Bytes)
    (it : CacheItem) (hf : UMap.find s.data_store_ k = some it) :
    lruKeys (del s k).2 = (lruKeys s).erase k := by
  obtain ⟨h, hh⟩ := hi.find_lru_map k it hf
  rw [del_of_present s k it h hf hh]
  exact keys_listErase _ h k hi.lru.ids_nodup hi.lru.keys_nodup ((hi.lru.handle k h).1 hh)

/-! ## Touches -/

theorem run_snoc (s : StorageEngine) (ops : List Op) (op : Op) :
    run s (ops ++ [op]) = step (run s ops) op := by
  simp [run, List.foldl_append]

theorem touchLog_snoc (s : StorageEngine) (ops : List Op) (op : Op) :
    touchLog s (ops ++ [op]) = touchLog s ops ++ [touches (run s ops) op] := by
  induction ops generalizing s with
  | nil => simp [touchLog, run]
  | cons a t ih =>
    show touches s a :: touchLog (step s a) (t ++ [op])
      = touches s a :: touchLog (step s a) t ++ [touches (run (step s a) t) op]
    rw [ih]
    rfl

theorem lastTouch_fold_fst (k : Bytes) (log : List (Option Bytes)) (c p : Nat) :
    (log.foldl (fun (acc : Nat × Nat) e =>
      (acc.1 + 1, if e = some k then acc.1 + 1 else acc.2)) (c, p)).1 = c + log.length := by
  induction log generalizing c p with
  | nil => simp
  | cons e t ih =>
    simp only [List.foldl_cons, List.length_cons, ih]
    omega

theorem lastTouch_snoc (log : List (Option Bytes)) (e : Option Bytes) (k : Bytes) :
    lastTouch (log ++ [e]) k = if e = some k then log.length + 1 else lastTouch log k := by
  unfold lastTouch
  rw [List.foldl_append]
  simp only [List.foldl_cons, List.foldl_nil, lastTouch_fold_fst, Nat.zero_add]

theorem lastTouch_le (log : List (Option Bytes)) (k : Bytes) :
    lastTouch log k ≤ log.length := by
  induction log using List.reverseRecOn with
  | nil => simp [lastTouch]
  | append_singleton l e ih =>
    rw [lastTouch_snoc]
    by_cases h : e = some k
    · simp [h]
    · simp only [h, if_false, List.length_append, List.length_singleton]
      omega

theorem TouchSorted.sublist_none {log : List (Option Bytes)} {l l' : List Bytes}
    (h : TouchSorted log l) (hs : l'.Sublist l) : TouchSorted (log ++ [none]) l' := by
  have hsame : ∀ k, lastTouch (log ++ [none]) k = lastTouch log k := by
    intro k
    rw [lastTouch_snoc]
    simp
  refine ⟨?_, fun k hk => ?_⟩
  · simp only [hsame]
    exact h.1.sublist hs
  · rw [hsame]
    exact h.2 k (hs.subset hk)

theorem TouchSorted.touch_key {log : List (Option Bytes)} {l l0 : List Bytes} (k : Bytes)
    (h : TouchSorted log l) (hs : l0.Sublist l) (hk : k ∉ l0) :
    TouchSorted (log ++ [some k]) (k :: l0) := by
  have hself : lastTouch (log ++ [some k]) k = log.length + 1 := by
    rw [lastTouch_snoc]
    simp
  have hother : ∀ b ∈ l0, lastTouch (log ++ [some k]) b = lastTouch log b := by
    intro b hb
    rw [lastTouch_snoc]
    have : ¬ (some k = some b) := by
      intro e
      cases e
      exact hk hb
    simp [this]
  refine ⟨List.pairwise_cons.2 ⟨?_, ?_⟩, ?_⟩
  · intro b hb
    rw [hself, hother b hb]
    have := lastTouch_le log b
    omega
  · refine List.Pairwise.imp_of_mem ?_ (h.1.sublist hs)
    intro a b ha hb hab
    rw [hother a ha, hother b hb]
    exact hab
  · intro x hx
    rcases List.mem_cons.1 hx with e | e
    · rw [e, hself]
      omega
    · rw [hother x e]
      exact h.2 x (hs.subset e)

theorem touchSorted_step {s : StorageEngine} (hi : Inv s) (log : List (Option Bytes))
    (op : Op) (h : TouchSorted log (lruKeys s)) :
    TouchSorted (log ++ [touches s op]) (lruKeys (step s op)) := by
  have hnd : (lruKeys s).Nodup := hi.lru.keys_nodup
  cases op with
  | set now k v =>
    show TouchSorted (log ++ [some k]) (lruKeys (set s now k v).2)
    cases hf : UMap.find s.data_store_ k with
    | some it =>
      rw [lruKeys_set_present hi now k v it hf]
      exact h.touch_key k (List.erase_sublist _ _) hnd.not_mem_erase
    | none =>
      rw [lruKeys_set_absent s now k v hf]
      obtain ⟨j, -, hkeys, -⟩ := evictIfNeeded_spec (calculateItemSize k v) s hi
      have hk : k ∉ lruKeys s := fun hm =>
        (UMap.find_eq_none_iff _ _).1 hf ((hi.ds_lru k).2 hm)
      rw [hkeys]
      exact h.touch_key k (List.take_sublist _ _) (fun hm => hk (List.mem_of_mem_take hm))
  | get now k =>
    cases hf : UMap.find s.data_store_ k with
    | some it =>
      have ht : touches s (Op.get now k) = some k := by simp [touches, hf]
      rw [ht]
      show TouchSorted (log ++ [some k]) (lruKeys (get s now k).2)
      rw [lruKeys_get_present hi now k it hf]
      exact h.touch_key k (List.erase_sublist _ _) hnd.not_mem_erase
    | none =>
      have ht : touches s (Op.get now k) = none := by simp [touches, hf]
      rw [ht]
      show TouchSorted (log ++ [none]) (lruKeys (get s now k).2)
      rw [get_of_absent s now k hf]
      exact h.sublist_none (List.Sublist.refl _)
  | del k =>
    show TouchSorted (log ++ [none]) (lruKeys (del s k).2)
    cases hf : UMap.find s.data_store_ k with
    | some it =>
      rw [lruKeys_del_present hi k it hf]
      exact h.sublist_none (List.erase_sublist _ _)
    | none =>
      rw [del_of_absent s k hf]
      exact h.sublist_none (List.Sublist.refl _)

theorem touchSorted_run (max_memory_size : Nat) (ops : List Op) :
    TouchSorted (touchLog (StorageEngine.new max_memory_size) ops)
      (lruKeys (run (StorageEngine.new max_memory_size) ops)) := by
  induction ops using List.reverseRecOn with
  | nil =>
    constructor <;> simp [run, lruKeys, StorageEngine.new]
  | append_singleton l op ih =>
    rw [touchLog_snoc, run_snoc]
    exact touchSorted_step ((Inv.new max_memory_size).run l) _ op ih

/-- C6: for every finite sequence of `set`/`get`/`del` calls on a freshly
constructed engine, `lru_list_` holds the present keys (those of
`data_store_`), all of them touched, front to back in strictly decreasing
order of the position in the sequence of the last touch of each key, where a
touch is a `set` of the key or a `get` that finds it; hence the front is the
most recently touched present key and the back (the next victim of an
eviction) the least recently touched one. -/
theorem C6_lru_list_in_touch_order (max_memory_size : Nat) (ops : List Op) :
    (∀ k, k ∈ lruKeys (run (StorageEngine.new max_memory_size) ops)
        ↔ k ∈ UMap.keys (run (StorageEngine.new max_memory_size) ops).data_store_) ∧
      (lruKeys (run (StorageEngine.new max_memory_size) ops)).Pairwise
        (fun a b => lastTouch (touchLog (StorageEngine.new max_memory_size) ops) b
          < lastTouch (touchLog (StorageEngine.new max_memory_size) ops) a) ∧
      (∀ k ∈ lruKeys (run (StorageEngine.new max_memory_size) ops),
        0 < lastTouch (touchLog (StorageEngine.new max_memory_size) ops) k) ∧
      (∀ f, (lruKeys (run (StorageEngine.new max_memory_size) ops)).head? = some f →
        ∀ k ∈ lruKeys (run (StorageEngine.new max_memory_size) ops),
          lastTouch (touchLog (StorageEngine.new max_memory_size) ops) k
            ≤ lastTouch (touchLog (StorageEngine.new max_memory_size) ops) f) ∧
      (∀ b, (lruKeys (run (StorageEngine.new max_memory_size) ops)).getLast? = some b →
        ∀ k ∈ lruKeys (run (StorageEngine.new max_memory_size) ops),
          lastTouch (touchLog (StorageEngine.new max_memory_size) ops) b
            ≤ lastTouch (touchLog (StorageEngine.new max_memory_size) ops) k) := by
  have hi := (Inv.new max_memory_size).run ops
  have hs := touchSorted_run max_memory_size ops
  refine ⟨fun k => (hi.ds_lru k).symm, hs.1, hs.2, ?_, ?_⟩
  · intro f hf k hk
    cases hL : lruKeys (run (StorageEngine.new max_memory_size) ops) with
    | nil => simp [hL] at hk
    | cons a t =>
      rw [hL] at hf hk
      have hp := hs.1
      rw [hL] at hp
      simp only [List.head?_cons, Option.some.injEq] at hf
      subst hf
      rcases List.mem_cons.1 hk with e | e
      · rw [e]
      · exact Nat.le_of_lt ((List.pairwise_cons.1 hp).1 k e)
  · intro b hb k hk
    have hL := eq_dropLast_append_of_getLast? _ _ hb
    have hp := hs.1
    rw [hL] at hp hk
    rcases List.mem_append.1 hk with e | e
    · exact Nat.le_of_lt ((List.pairwise_append.1 hp).2.2 k e b (List.mem_singleton_self _))
    · rw [List.mem_singleton.1 e]

/-! ## The insert branch of `set` -/

/-- What `set` does for a key that is absent, on a state that satisfies the
invariant. -/
theorem set_absent_spec {s : StorageEngine} (hi : Inv s) (now : Nat) (k v : Bytes)
    (hf : UMap.find s.data_store_ k = none) :
    ∃ j, j ≤ (lruKeys s).length ∧
      (∀ j', j' < j → ¬ fitsWithout s (calculateItemSize k v) j') ∧
      (fitsWithout s (calculateItemSize k v) j ∨ j = (lruKeys s).length) ∧
      lruKeys (set s now k v).2 = k :: (lruKeys s).take ((lruKeys s).length - j) ∧
      (∀ k' ∈ (lruKeys s).take ((lruKeys s).length - j),
        UMap.find (set s now k v).2.data_store_ k' = UMap.find s.data_store_ k') ∧
      (∀ k' ∈ (lruKeys s).drop ((lruKeys s).length - j),
        UMap.find (set s now k v).2.data_store_ k' = none) ∧
      UMap.find (set s now k v).2.data_store_ k
        = some { value := v, last_accessed := now, size := calculateItemSize k v } ∧
      getMemoryUsage (set s now k v).2
        = s.current_memory_usage_ - suffixSize s j + calculateItemSize k v := by
  obtain ⟨j, hj, hkeys, hcur, hfind, hnone, hmin, hfit⟩ :=
    evictIfNeeded_spec (calculateItemSize k v) s hi
  have hk : k ∉ lruKeys s := fun hm =>
    (UMap.find_eq_none_iff _ _).1 hf ((hi.ds_lru k).2 hm)
  have hds : (set s now k v).2.data_store_
      = UMap.assign (evictIfNeeded s (calculateItemSize k v)).data_store_ k
        { value := v, last_accessed := now, size := calculateItemSize k v } := by
    rw [set_of_absent s now k v hf]
    rfl
  refine ⟨j, hj, hmin, hfit, ?_, ?_, ?_, set_find_self s now k v, ?_⟩
  · rw [lruKeys_set_absent s now k v hf, hkeys]
  · intro k' hk'
    have hne : k' ≠ k := fun e => hk (e ▸ List.mem_of_mem_take hk')
    rw [hds, UMap.find_assign_ne _ _ _ _ hne]
    exact hfind k' (hkeys ▸ hk')
  · intro k' hk'
    have hne : k' ≠ k := fun e => hk (e ▸ List.mem_of_mem_drop hk')
    rw [hds, UMap.find_assign_ne _ _ _ _ hne]
    apply hnone
    rw [hkeys]
    have hnd : (lruKeys s).Nodup := hi.lru.keys_nodup
    rw [← List.take_append_drop ((lruKeys s).length - j) (lruKeys s)] at hnd
    exact fun hm => (List.nodup_append.1 hnd).2.2 hm hk'
  · rw [set_of_absent s now k v hf]
    show (evictIfNeeded s (calculateItemSize k v)).current_memory_usage_
      + calculateItemSize k v = _
    rw [hcur]

/-- C7: for every reachable engine state and every `set(k, v)` where `k` is
absent, with `new_size = len(k) + len(v) + 64`: the call removes the `j` least
recent keys of the previous `lru_list_`, where `j` is the least number such
that `current_memory_usage + new_size <= max_memory_size` once the `j` least
recent entries are removed (the whole list when there is no such number);
every surviving key keeps its entry and its relative recency order; `k` is
inserted at the front with the value `v`; and the memory usage is the previous
one, less the sizes of the removed entries, plus `new_size`. -/
theorem C7_insert_evicts_shortest_suffix (s : StorageEngine) (hr : Reachable s)
    (now : Nat) (k v : Bytes) (hf : UMap.find s.data_store_ k = none) :
    ∃ j, j ≤ (lruKeys s).length ∧
      (∀ j', j' < j → ¬ fitsWithout s (calculateItemSize k v) j') ∧
      (fitsWithout s (calculateItemSize k v) j ∨ j = (lruKeys s).length) ∧
      lruKeys (set s now k v).2 = k :: (lruKeys s).take ((lruKeys s).length - j) ∧
      (∀ k' ∈ (lruKeys s).take ((lruKeys s).length - j),
        UMap.find (set s now k v).2.data_store_ k' = UMap.find s.data_store_ k') ∧
      (∀ k' ∈ (lruKeys s).drop ((lruKeys s).length - j),
        UMap.find (set s now k v).2.data_store_ k' = none) ∧
      UMap.find (set s now k v).2.data_store_ k
        = some { value := v, last_accessed := now, size := calculateItemSize k v } ∧
      getMemoryUsage (set s now k v).2
        = s.current_memory_usage_ - suffixSize s j + calculateItemSize k v :=
  set_absent_spec (Inv.of_reachable hr) now k v hf

/-- C7 at the state reached by `set("\x01", "\x02")`, `set("\x02", "\x02")`
with `max_memory_size = 132`, for `set("\x03", "\x03")`. -/
theorem C7_insert_evicts_shortest_suffix_witness :
    Reachable (run (StorageEngine.new 132) [Op.set 0 [1] [2], Op.set 1 [2] [2]]) ∧
      UMap.find (run (StorageEngine.new 132)
        [Op.set 0 [1] [2], Op.set 1 [2] [2]]).data_store_ [3] = none ∧
      ∃ j, j ≤ (lruKeys (run (StorageEngine.new 132)
          [Op.set 0 [1] [2], Op.set 1 [2] [2]])).length ∧
        lruKeys (set (run (StorageEngine.new 132)
          [Op.set 0 [1] [2], Op.set 1 [2] [2]]) 2 [3] [3]).2
          = [3] :: (lruKeys (run (StorageEngine.new 132)
              [Op.set 0 [1] [2], Op.set 1 [2] [2]])).take
            ((lruKeys (run (StorageEngine.new 132)
              [Op.set 0 [1] [2], Op.set 1 [2] [2]])).length - j) := by
  refine ⟨⟨132, _, rfl⟩, by decide, ?_⟩
  obtain ⟨j, hj, -, -, hkeys, -⟩ := C7_insert_evicts_shortest_suffix
    (run (StorageEngine.new 132) [Op.set 0 [1] [2], Op.set 1 [2] [2]])
    ⟨132, _, rfl⟩ 2 [3] [3] (by decide)
  exact ⟨j, hj, hkeys⟩

/-- The state after `set(k1, v1)`, `set(k2, v2)`, `get(k1)`, `set(k3, v3)` on a
fresh engine in which the first two items fit together, the three do not, and
the first and the third do: `k2` has been evicted. -/
theorem scenario_state (max_memory_size : Nat) (n1 n2 n3 n4 : Nat)
    (k1 k2 k3 v1 v2 v3 : Bytes) (h12 : k1 ≠ k2) (h13 : k1 ≠ k3) (h23 : k2 ≠ k3)
    (hfit2 : calculateItemSize k1 v1 + calculateItemSize k2 v2 ≤ max_memory_size)
    (hover : max_memory_size
      < calculateItemSize k1 v1 + calculateItemSize k2 v2 + calculateItemSize k3 v3)
    (hfit3 : calculateItemSize k1 v1 + calculateItemSize k3 v3 ≤ max_memory_size) :
    run (StorageEngine.new max_memory_size)
      [Op.set n1 k1 v1, Op.set n2 k2 v2, Op.get n3 k1, Op.set n4 k3 v3]
      = { data_store_ :=
            [(k1, { value := v1, last_accessed := n3, size := calculateItemSize k1 v1 }),
             (k3, { value := v3, last_accessed := n4, size := calculateItemSize k3 v3 })]
          lru_list_ := [{ id := 3, key := k3 }, { id := 2, key := k1 }]
          lru_map_ := [(k1, 2), (k3, 3)]
          max_memory_size_ := max_memory_size
          current_memory_usage_ := calculateItemSize k1 v1 + calculateItemSize k3 v3
          next_node_ := 4 } := by
  have h21 : k2 ≠ k1 := fun e => h12 e.symm
  have h31 : k3 ≠ k1 := fun e => h13 e.symm
  have h32 : k3 ≠ k2 := fun e => h23 e.symm
  have hc2 : ¬ max_memory_size < calculateItemSize k1 v1 + calculateItemSize k2 v2 :=
    Nat.not_lt.2 hfit2
  have hc3 : ¬ max_memory_size < calculateItemSize k1 v1 + calculateItemSize k3 v3 :=
    Nat.not_lt.2 hfit3
  have e1 : (set (StorageEngine.new max_memory_size) n1 k1 v1).2
      = { data_store_ :=
            [(k1, { value := v1, last_accessed := n1, size := calculateItemSize k1 v1 })]
          lru_list_ := [{ id := 0, key := k1 }]
          lru_map_ := [(k1, 0)]
          max_memory_size_ := max_memory_size
          current_memory_usage_ := calculateItemSize k1 v1
          next_node_ := 1 } := by
    simp [set, UMap.find, UMap.assign, StorageEngine.new, evictIfNeeded, evictLoop, pushFront]
  have e2 : (set (set (StorageEngine.new max_memory_size) n1 k1 v1).2 n2 k2 v2).2
      = { data_store_ :=
            [(k1, { value := v1, last_accessed := n1, size := calculateItemSize k1 v1 }),
             (k2, { value := v2, last_accessed := n2, size := calculateItemSize k2 v2 })]
          lru_list_ := [{ id := 1, key := k2 }, { id := 0, key := k1 }]
          lru_map_ := [(k1, 0), (k2, 1)]
          max_memory_size_ := max_memory_size
          current_memory_usage_ := calculateItemSize k1 v1 + calculateItemSize k2 v2
          next_node_ := 2 } := by
    rw [e1]
    simp [set, UMap.find, UMap.assign, evictIfNeeded, evictLoop, evictCond, pushFront,
      h12, hc2]
  have e3 : (get (set (set (StorageEngine.new max_memory_size) n1 k1 v1).2 n2 k2 v2).2
        n3 k1).2
      = { data_store_ :=
            [(k1, { value := v1, last_accessed := n3, size := calculateItemSize k1 v1 }),
             (k2, { value := v2, last_accessed := n2, size := calculateItemSize k2 v2 })]
          lru_list_ := [{ id := 2, key := k1 }, { id := 1, key := k2 }]
          lru_map_ := [(k1, 2), (k2, 1)]
          max_memory_size_ := max_memory_size
          current_memory_usage_ := calculateItemSize k1 v1 + calculateItemSize k2 v2
          next_node_ := 3 } := by
    rw [e2]
    simp [get, UMap.find, UMap.assign, updateLRU, listErase, pushFront]
  show (set (get (set (set (StorageEngine.new max_memory_size) n1 k1 v1).2 n2 k2 v2).2
    n3 k1).2 n4 k3 v3).2 = _
  rw [e3]
  simp [set, UMap.find, UMap.assign, UMap.erase, evictIfNeeded, evictLoop, evictCond,
    evictOne, pushFront, h12, h13, h23, h21, h31, h32, hover, hc3]

/-- C8: for every `max_memory_size`, pairwise distinct keys `k1`, `k2`, `k3`
and values `v1`, `v2`, `v3` of sizes `s_i = len(k_i) + len(v_i) + 64` with
`s1 + s2 <= max`, `s1 + s2 + s3 > max` and `s1 + s3 <= max`: on a fresh engine,
after `set(k1, v1)`, `set(k2, v2)`, `get(k1)`, `set(k3, v3)`, the key `k2` is
absent, `get(k2)` returns `"NULL"` and changes nothing, `get(k1)` returns `v1`
and `get(k3)` (made after it, or in its place) returns `v3`. -/
theorem C8_lru_eviction_scenario (max_memory_size : Nat) (n1 n2 n3 n4 na nb nc : Nat)
    (k1 k2 k3 v1 v2 v3 : Bytes) (h12 : k1 ≠ k2) (h13 : k1 ≠ k3) (h23 : k2 ≠ k3)
    (hfit2 : calculateItemSize k1 v1 + calculateItemSize k2 v2 ≤ max_memory_size)
    (hover : max_memory_size
      < calculateItemSize k1 v1 + calculateItemSize k2 v2 + calculateItemSize k3 v3)
    (hfit3 : calculateItemSize k1 v1 + calculateItemSize k3 v3 ≤ max_memory_size) :
    UMap.find (run (StorageEngine.new max_memory_size)
        [Op.set n1 k1 v1, Op.set n2 k2 v2, Op.get n3 k1, Op.set n4 k3 v3]).data_store_ k2
        = none ∧
      get (run (StorageEngine.new max_memory_size)
        [Op.set n1 k1 v1, Op.set n2 k2 v2, Op.get n3 k1, Op.set n4 k3 v3]) na k2
        = (NULL, run (StorageEngine.new max_memory_size)
            [Op.set n1 k1 v1, Op.set n2 k2 v2, Op.get n3 k1, Op.set n4 k3 v3]) ∧
      (get (run (StorageEngine.new max_memory_size)
        [Op.set n1 k1 v1, Op.set n2 k2 v2, Op.get n3 k1, Op.set n4 k3 v3]) nb k1).1 = v1 ∧
      (get (get (run (StorageEngine.new max_memory_size)
        [Op.set n1 k1 v1, Op.set n2 k2 v2, Op.get n3 k1, Op.set n4 k3 v3]) nb k1).2
          nc k3).1 = v3 ∧
      (get (run (StorageEngine.new max_memory_size)
        [Op.set n1 k1 v1, Op.set n2 k2 v2, Op.get n3 k1, Op.set n4 k3 v3]) nc k3).1 = v3 := by
  have h21 : k2 ≠ k1 := fun e => h12 e.symm
  have h31 : k3 ≠ k1 := fun e => h13 e.symm
  have h32 : k3 ≠ k2 := fun e => h23 e.symm
  rw [scenario_state max_memory_size n1 n2 n3 n4 k1 k2 k3 v1 v2 v3 h12 h13 h23 hfit2 hover
    hfit3]
  refine ⟨?_, ?_, ?_, ?_, ?_⟩
  · simp [UMap.find, h12, h32]
  · simp [get, UMap.find, h12, h32]
  · simp [get, UMap.find]
  · simp [get, UMap.find, UMap.assign, updateLRU, pushFront, listErase, h13]
  · simp [get, UMap.find, h13]

/-- C8 at the keys `"A"`, `"B"`, `"C"` with the one-byte value `"\x01"` and
`max_memory_size = 132`, which holds exactly two entries of 66 bytes. -/
theorem C8_lru_eviction_scenario_witness :
    (([65] : Bytes) ≠ [66] ∧ ([65] : Bytes) ≠ [67] ∧ ([66] : Bytes) ≠ [67]) ∧
      (calculateItemSize [65] [1] + calculateItemSize [66] [1] ≤ 132 ∧
        132 < calculateItemSize [65] [1] + calculateItemSize [66] [1]
          + calculateItemSize [67] [1] ∧
        calculateItemSize [65] [1] + calculateItemSize [67] [1] ≤ 132) ∧
      (UMap.find (run (StorageEngine.new 132)
          [Op.set 0 [65] [1], Op.set 1 [66] [1], Op.get 2 [65], Op.set 3 [67] [1]]).data_store_
          [66] = none ∧
        get (run (StorageEngine.new 132)
          [Op.set 0 [65] [1], Op.set 1 [66] [1], Op.get 2 [65], Op.set 3 [67] [1]]) 4 [66]
          = (NULL, run (StorageEngine.new 132)
            [Op.set 0 [65] [1], Op.set 1 [66] [1], Op.get 2 [65], Op.set 3 [67] [1]]) ∧
        (get (run (StorageEngine.new 132)
          [Op.set 0 [65] [1], Op.set 1 [66] [1], Op.get 2 [65], Op.set 3 [67] [1]]) 5 [65]).1
          = [1] ∧
        (get (get (run (StorageEngine.new 132)
          [Op.set 0 [65] [1], Op.set 1 [66] [1], Op.get 2 [65], Op.set 3 [67] [1]]) 5 [65]).2
            6 [67]).1 = [1] ∧
        (get (run (StorageEngine.new 132)
          [Op.set 0 [65] [1], Op.set 1 [66] [1], Op.get 2 [65], Op.set 3 [67] [1]]) 6 [67]).1
          = [1]) :=
  ⟨by decide, by decide,
    C8_lru_eviction_scenario 132 0 1 2 3 4 5 6 [65] [66] [67] [1] [1] [1]
      (by decide) (by decide) (by decide) (by decide) (by decide) (by decide)⟩

/-- C9: for every reachable engine state, every key `k` absent from the store
and every value `v` with `len(k) + len(v) + 64 > max_memory_size`: after
`set(k, v)` the store holds exactly the entry of `k`, with the value `v`
(every previous entry is evicted), `lru_list_` holds exactly `k`, and
`getMemoryUsage()` is `len(k) + len(v) + 64`, which exceeds
`max_memory_size`. -/
theorem C9_oversized_item_empties_store (s : StorageEngine) (hr : Reachable s)
    (now : Nat) (k v : Bytes) (hf : UMap.find s.data_store_ k = none)
    (hbig : s.max_memory_size_ < calculateItemSize k v) :
    (set s now k v).2.data_store_
        = [(k, { value := v, last_accessed := now, size := calculateItemSize k v })] ∧
      lruKeys (set s now k v).2 = [k] ∧
      getMemoryUsage (set s now k v).2 = k.length + v.length + 64 ∧
      (set s now k v).2.max_memory_size_ < getMemoryUsage (set s now k v).2 := by
  have hi := Inv.of_reachable hr
  obtain ⟨j, hj, hkeys, -, -, -, -, hfit⟩ := evictIfNeeded_spec (calculateItemSize k v) s hi
  have hjl : j = (lruKeys s).length := by
    rcases hfit with h | h
    · unfold fitsWithout at h
      omega
    · exact h
  have hi' := hi.evictIfNeeded (calculateItemSize k v)
  have hL : lruKeys (evictIfNeeded s (calculateItemSize k v)) = [] := by
    rw [hkeys, hjl]
    simp
  have hds : (evictIfNeeded s (calculateItemSize k v)).data_store_ = [] := by
    apply List.eq_nil_iff_forall_not_mem.2
    rintro ⟨k', it'⟩ hm
    have : k' ∈ UMap.keys (evictIfNeeded s (calculateItemSize k v)).data_store_ :=
      List.mem_map.2 ⟨_, hm, rfl⟩
    rw [hi'.ds_lru, hL] at this
    simp at this
  have hcur : (evictIfNeeded s (calculateItemSize k v)).current_memory_usage_ = 0 := by
    rw [hi'.usage, hds]
    rfl
  have hmax : (evictIfNeeded s (calculateItemSize k v)).max_memory_size_
      = s.max_memory_size_ := evictLoop_max _ _ _
  rw [set_of_absent s now k v hf]
  refine ⟨?_, ?_, ?_, ?_⟩
  · show UMap.assign (evictIfNeeded s (calculateItemSize k v)).data_store_ k _ = _
    rw [hds]
    rfl
  · show k :: lruKeys (evictIfNeeded s (calculateItemSize k v)) = [k]
    rw [hL]
  · show (evictIfNeeded s (calculateItemSize k v)).current_memory_usage_
      + calculateItemSize k v = _
    rw [hcur]
    simp [calculateItemSize, OVERHEAD_PER_ENTRY]
  · show (evictIfNeeded s (calculateItemSize k v)).max_memory_size_
      < (evictIfNeeded s (calculateItemSize k v)).current_memory_usage_
        + calculateItemSize k v
    rw [hcur, hmax]
    omega

/-- C9 at the state reached by `set("\x01", "\x02")`, `set("\x02", "\x02")`
with `max_memory_size = 132`, for a `set` of the key `"\x03"` with a value of
70 bytes. -/
theorem C9_oversized_item_empties_store_witness :
    Reachable (run (StorageEngine.new 132) [Op.set 0 [1] [2], Op.set 1 [2] [2]]) ∧
      UMap.find (run (StorageEngine.new 132)
        [Op.set 0 [1] [2], Op.set 1 [2] [2]]).data_store_ [3] = none ∧
      (run (StorageEngine.new 132)
        [Op.set 0 [1] [2], Op.set 1 [2] [2]]).max_memory_size_
        < calculateItemSize [3] (List.replicate 70 0) ∧
      getMemoryUsage (set (run (StorageEngine.new 132)
        [Op.set 0 [1] [2], Op.set 1 [2] [2]]) 2 [3] (List.replicate 70 0)).2
        = ([3] : Bytes).length + (List.replicate 70 (0 : UInt8)).length + 64 :=
  ⟨⟨132, _, rfl⟩, by decide, by decide,
    (C9_oversized_item_empties_store
      (run (StorageEngine.new 132) [Op.set 0 [1] [2], Op.set 1 [2] [2]])
      ⟨132, _, rfl⟩ 2 [3] (List.replicate 70 0) (by decide) (by decide)).2.2.1⟩

/-- C10: for every reachable engine state and key `k`, `del(k)` returns `true`
if and only if `k` was present.  If `k` was present, afterwards `k` is absent
from `data_store_`, `lru_map_` and `lru_list_`, `getMemoryUsage()` has
decreased by exactly the size of the entry, every other key keeps its entry,
and `lru_list_` is the previous one without `k` (the other keys keep their
relative order, none is promoted).  If `k` was absent, the whole engine state
is unchanged. -/
theorem C10_del_contract (s : StorageEngine) (hr : Reachable s) (k : Bytes) :
    ((del s k).1 = true ↔ k ∈ UMap.keys s.data_store_) ∧
      (∀ it, UMap.find s.data_store_ k = some it →
        UMap.find (del s k).2.data_store_ k = none ∧
        UMap.find (del s k).2.lru_map_ k = none ∧
        k ∉ lruKeys (del s k).2 ∧
        getMemoryUsage (del s k).2 + it.size = getMemoryUsage s ∧
        (∀ k', k' ≠ k → UMap.find (del s k).2.data_store_ k' = UMap.find s.data_store_ k') ∧
        lruKeys (del s k).2 = (lruKeys s).filter (fun k' => decide (k' ≠ k))) ∧
      (UMap.find s.data_store_ k = none → (del s k).2 = s) := by
  have hi := Inv.of_reachable hr
  refine ⟨?_, ?_, ?_⟩
  · cases hf : UMap.find s.data_store_ k with
    | some it =>
      obtain ⟨h, hh⟩ := hi.find_lru_map k it hf
      rw [del_of_present s k it h hf hh]
      simp [UMap.mem_keys_iff, hf]
    | none =>
      rw [del_of_absent s k hf]
      simp [UMap.mem_keys_iff, hf]
  · intro it hf
    obtain ⟨h, hh⟩ := hi.find_lru_map k it hf
    have hkeys := lruKeys_del_present hi k it hf
    have hnd : (lruKeys s).Nodup := hi.lru.keys_nodup
    rw [del_of_present s k it h hf hh] at hkeys ⊢
    refine ⟨UMap.find_erase_self _ _ hi.ds_nodup, UMap.find_erase_self _ _ hi.lru.map_nodup,
      ?_, ?_, fun k' hne => UMap.find_erase_ne _ _ _ hne, ?_⟩
    · rw [hkeys]
      exact hnd.not_mem_erase
    · show s.current_memory_usage_ - it.size + it.size = s.current_memory_usage_
      have h1 := accountedSum_ge s.data_store_ k it hf
      have h2 := hi.size_ok k it hf
      have h3 := hi.usage
      omega
    · rw [hkeys, hnd.erase_eq_filter]
      apply List.filter_congr
      intro x _
      by_cases e : x = k <;> simp [e]
  · intro hf
    rw [del_of_absent s k hf]

/-- C10 at the state reached by `set("\x01", "\x02")`, `set("\x02", "\x02")`
with `max_memory_size = 132`, for `del("\x01")`. -/
theorem C10_del_contract_witness :
    Reachable (run (StorageEngine.new 132) [Op.set 0 [1] [2], Op.set 1 [2] [2]]) ∧
      ((del (run (StorageEngine.new 132) [Op.set 0 [1] [2], Op.set 1 [2] [2]]) [1]).1 = true
        ↔ [1] ∈ UMap.keys (run (StorageEngine.new 132)
            [Op.set 0 [1] [2], Op.set 1 [2] [2]]).data_store_) :=
  ⟨⟨132, _, rfl⟩,
    (C10_del_contract (run (StorageEngine.new 132) [Op.set 0 [1] [2], Op.set 1 [2] [2]])
      ⟨132, _, rfl⟩ [1]).1⟩

/-! ## The frame of `get` -/

/-- C11: for every reachable engine state and key `k`, `get(k)` leaves the
value and the size of every entry (hence the set of keys) and
`getMemoryUsage()` unchanged.  If `k` is present, it returns the stored value,
and `lru_list_` afterwards is `k` followed by the other keys in their previous
order; if `k` is absent, it returns `"NULL"` and the whole state, `lru_list_`
and `lru_map_` included, is unchanged. -/
theorem C11_get_frame (s : StorageEngine) (hr : Reachable s) (now : Nat) (k : Bytes) :
    (∀ k', (UMap.find (get s now k).2.data_store_ k').map CacheItem.value
        = (UMap.find s.data_store_ k').map CacheItem.value) ∧
      (∀ k', (UMap.find (get s now k).2.data_store_ k').map CacheItem.size
        = (UMap.find s.data_store_ k').map CacheItem.size) ∧
      getMemoryUsage (get s now k).2 = getMemoryUsage s ∧
      (∀ it, UMap.find s.data_store_ k = some it →
        (get s now k).1 = it.value ∧
        lruKeys (get s now k).2 = k :: (lruKeys s).filter (fun k' => decide (k' ≠ k))) ∧
      (UMap.find s.data_store_ k = none → get s now k = (NULL, s)) := by
  have hi := Inv.of_reachable hr
  have hnd : (lruKeys s).Nodup := hi.lru.keys_nodup
  cases hf : UMap.find s.data_store_ k with
  | none =>
    rw [get_of_absent s now k hf]
    refine ⟨fun _ => rfl, fun _ => rfl, rfl, fun it h => (by cases h), fun _ => rfl⟩
  | some it =>
    have hkeys := lruKeys_get_present hi now k it hf
    rw [get_of_present s now k it hf] at hkeys ⊢
    have hfind : ∀ k', UMap.find (UMap.assign s.data_store_ k { it with last_accessed := now }) k'
        = if k' = k then some { it with last_accessed := now } else UMap.find s.data_store_ k' := by
      intro k'
      by_cases e : k' = k
      · rw [if_pos e, e, UMap.find_assign_self]
      · rw [if_neg e, UMap.find_assign_ne _ _ _ _ e]
    refine ⟨?_, ?_, ?_, ?_, fun h => by cases h⟩
    · intro k'
      simp only [updateLRU_data_store, hfind]
      by_cases e : k' = k
      · simp [e, hf]
      · simp [e]
    · intro k'
      simp only [updateLRU_data_store, hfind]
      by_cases e : k' = k
      · simp [e, hf]
      · simp [e]
    · simp only [getMemoryUsage, updateLRU_usage]
    · intro it' h
      cases h
      refine ⟨rfl, ?_⟩
      rw [hkeys, hnd.erase_eq_filter]
      congr 1
      apply List.filter_congr
      intro x _
      by_cases e : x = k <;> simp [e]

/-- C11 at the state reached by `set("\x01", "\x02")`, `set("\x02", "\x02")`
with `max_memory_size = 132`, for `get("\x01")`. -/
theorem C11_get_frame_witness :
    Reachable (run (StorageEngine.new 132) [Op.set 0 [1] [2], Op.set 1 [2] [2]]) ∧
      getMemoryUsage (get (run (StorageEngine.new 132)
        [Op.set 0 [1] [2], Op.set 1 [2] [2]]) 2 [1]).2
        = getMemoryUsage (run (StorageEngine.new 132) [Op.set 0 [1] [2], Op.set 1 [2] [2]]) :=
  ⟨⟨132, _, rfl⟩,
    (C11_get_frame (run (StorageEngine.new 132) [Op.set 0 [1] [2], Op.set 1 [2] [2]])
      ⟨132, _, rfl⟩ 2 [1]).2.2.1⟩

/-! ## The dispatch of commands -/

theorem processCommand_SET (engine : StorageEngine) (now : Nat) (verb k v : Bytes)
    (extra : List Bytes) (h : verb.map toupper = ascii "SET") :
    processCommand engine now (verb :: k :: v :: extra)
      = (ascii "+OK\r\n", (set engine now k v).2) := by
  have h1 : encodeSimpleString (ascii "OK") = ascii "+OK\r\n" := by decide
  simp [processCommand, h, h1]

theorem processCommand_GET (engine : StorageEngine) (now : Nat) (verb k : Bytes)
    (extra : List Bytes) (h : verb.map toupper = ascii "GET") :
    processCommand engine now (verb :: k :: extra)
      = (if (get engine now k).1 = NULL then ascii "$-1\r\n"
          else encodeBulkString (get engine now k).1, (get engine now k).2) := by
  have h1 : ascii "GET" ≠ ascii "SET" := by decide
  have h2 : ascii "GET" ≠ ascii "CONFIG" := by decide
  have h3 : encodeNull = ascii "$-1\r\n" := by decide
  simp [processCommand, h, h1, h2, h3]

theorem processCommand_DEL (engine : StorageEngine) (now : Nat) (verb k : Bytes)
    (extra : List Bytes) (h : verb.map toupper = ascii "DEL") :
    processCommand engine now (verb :: k :: extra)
      = (if (del engine k).1 = true then ascii ":1\r\n" else ascii ":0\r\n",
          (del engine k).2) := by
  have h1 : ascii "DEL" ≠ ascii "SET" := by decide
  have h2 : ascii "DEL" ≠ ascii "CONFIG" := by decide
  have h3 : ascii "DEL" ≠ ascii "GET" := by decide
  have h4 : encodeInteger 1 = ascii ":1\r\n" := by decide
  have h5 : encodeInteger 0 = ascii ":0\r\n" := by decide
  simp [processCommand, h, h1, h2, h3, h4, h5]

theorem del_fst (s : StorageEngine) (k : Bytes) :
    (del s k).1 = (UMap.find s.data_store_ k).isSome := by
  unfold del
  cases UMap.find s.data_store_ k <;> rfl

theorem del_find_self {s : StorageEngine} (hi : Inv s) (k : Bytes) :
    UMap.find (del s k).2.data_store_ k = none := by
  cases hf : UMap.find s.data_store_ k with
  | none =>
    rw [del_of_absent s k hf]
    exact hf
  | some it =>
    obtain ⟨h, hh⟩ := hi.find_lru_map k it hf
    rw [del_of_present s k it h hf hh]
    exact UMap.find_erase_self _ _ hi.ds_nodup

/-- C12 (evaluation of the code where the claim fails): on the engine of the
server (1 GiB), after `set("k", "NULL")` the key `"k"` is present with the value
`"NULL"`, and the command `GET k` is answered `"$-1\r\n"`, not the bulk string
`"$4\r\nNULL\r\n"`; the same over the connection, where the requests
`SET k NULL` and `GET k` are answered `"+OK\r\n"` and `"$-1\r\n"`. -/
theorem C12_stored_NULL_answered_as_missing :
    UMap.find (set (StorageEngine.new 1073741824) 0 (ascii "k") (ascii "NULL")).2.data_store_
        (ascii "k") = some { value := ascii "NULL", last_accessed := 0, size := 69 } ∧
      (processCommand (set (StorageEngine.new 1073741824) 0 (ascii "k") (ascii "NULL")).2 1
        [ascii "GET", ascii "k"]).1 = ascii "$-1\r\n" ∧
      encodeBulkString (ascii "NULL") = ascii "$4\r\nNULL\r\n" ∧
      (handleClient { engine_ := StorageEngine.new 1073741824, buffer := [], written := [] }
        [(0, encodeArray [ascii "SET", ascii "k", ascii "NULL"]),
         (1, encodeArray [ascii "GET", ascii "k"])]).map Connection.written
        = Except.ok [ascii "+OK\r\n", ascii "$-1\r\n"] :=
  ⟨by decide, by decide, by decide, rfl⟩

/-- C13 (evaluation of the code where the claim fails): the list made of the
one string `0x00 CR LF 0x00` is encoded as `"*1\r\n$4\r\n"` followed by the
four bytes and `"\r\n"`, and `parseRequest` decodes this frame to the list made
of the one-byte string `0x00`: the payload is read up to the first CR, not for
the declared length. -/
theorem C13_binary_payload_truncated :
    encodeArray [[0, 13, 10, 0]] = ascii "*1\r\n$4\r\n" ++ [0, 13, 10, 0] ++ ascii "\r\n" ∧
      parseRequest (encodeArray [[0, 13, 10, 0]]) = Except.ok [[0]] :=
  ⟨by decide, rfl⟩

/-- C14 (evaluation of the code where the claim fails): `"*2\r\n$3\r\nGET\r\n"`
is a strict prefix of the frame of `GET foo`, and `parseRequest` returns for it
the command made of `"GET"` alone, not the empty result; `handleClient` then
clears the buffer, dispatches this command and writes the error reply. -/
theorem C14_prefix_parsed_as_command :
    ascii "*2\r\n$3\r\nGET\r\n" ++ ascii "$3\r\nfoo\r\n"
        = encodeArray [ascii "GET", ascii "foo"] ∧
      parseRequest (ascii "*2\r\n$3\r\nGET\r\n") = Except.ok [ascii "GET"] ∧
      handleClient { engine_ := StorageEngine.new 1073741824, buffer := [], written := [] }
        [(0, ascii "*2\r\n$3\r\nGET\r\n")]
        = Except.ok
          { engine_ := StorageEngine.new 1073741824
            buffer := []
            written := [ascii "-ERR unknown command or wrong number of arguments\r\n"] } :=
  ⟨by decide, rfl, rfl⟩

/-- C15 (evaluation of the code where the claim fails): when one `read`
delivers the frame of `SET k v` followed by the frame of `GET k` into an empty
buffer, `handleClient` processes the `SET`, writes the one reply `"+OK\r\n"` and
clears the buffer: the `GET` is dropped and gets no reply. -/
theorem C15_pipelined_frame_dropped :
    handleClient { engine_ := StorageEngine.new 1073741824, buffer := [], written := [] }
        [(0, encodeArray [ascii "SET", ascii "k", ascii "v"]
          ++ encodeArray [ascii "GET", ascii "k"])]
      = Except.ok
        { engine_ := (set (StorageEngine.new 1073741824) 0 (ascii "k") (ascii "v")).2
          buffer := []
          written := [ascii "+OK\r\n"] } :=
  rfl

/-- C16 (evaluation of the code where the claim fails): on the buffers
`"*x\r\n"` and `"*\r\n"` the call of `std::stoi` in `parseRequest` throws
`std::invalid_argument`, on `"*99999999999\r\n"` it throws `std::out_of_range`,
and the exception leaves `handleClient`. -/
theorem C16_stoi_exception_escapes :
    parseRequest (ascii "*x\r\n") = Except.error StoiError.invalid_argument ∧
      parseRequest (ascii "*\r\n") = Except.error StoiError.invalid_argument ∧
      parseRequest (ascii "*99999999999\r\n") = Except.error StoiError.out_of_range ∧
      handleClient { engine_ := StorageEngine.new 1073741824, buffer := [], written := [] }
        [(0, ascii "*x\r\n")] = Except.error StoiError.invalid_argument :=
  ⟨rfl, rfl, rfl, rfl⟩

/-- C17 (evaluation of the code where the claim fails): on the frame
`"*1\r\n$100\r\nPING\r\n"`, whose bulk header declares 100 bytes for a payload
of 4, `parseRequest` returns the command made of `"PING"`, and `handleClient`
dispatches it and writes the reply of an unknown command. -/
theorem C17_length_mismatch_accepted :
    parseRequest (ascii "*1\r\n$100\r\nPING\r\n") = Except.ok [ascii "PING"] ∧
      handleClient { engine_ := StorageEngine.new 1073741824, buffer := [], written := [] }
        [(0, ascii "*1\r\n$100\r\nPING\r\n")]
        = Except.ok
          { engine_ := StorageEngine.new 1073741824
            buffer := []
            written := [ascii "-ERR unknown command or wrong number of arguments\r\n"] } :=
  ⟨rfl, rfl⟩

/-- C18: for every engine state and every command of at least three arguments
whose first argument uppercases to `SET`, `processCommand` replies exactly
`"+OK\r\n"` and leaves the engine in the state of `engine.set(arg1, arg2)`; the
arguments after the third have no effect. -/
theorem C18_SET_command (engine : StorageEngine) (now : Nat) (verb k v : Bytes)
    (extra : List Bytes) (h : verb.map toupper = ascii "SET") :
    processCommand engine now (verb :: k :: v :: extra)
      = (ascii "+OK\r\n", (set engine now k v).2) :=
  processCommand_SET engine now verb k v extra h

/-- C18 for the command `set k v x` on the engine of the server. -/
theorem C18_SET_command_witness :
    (ascii "set").map toupper = ascii "SET" ∧
      processCommand (StorageEngine.new 1073741824) 0
        (ascii "set" :: ascii "k" :: ascii "v" :: [ascii "x"])
        = (ascii "+OK\r\n", (set (StorageEngine.new 1073741824) 0 (ascii "k") (ascii "v")).2) :=
  ⟨by decide, C18_SET_command (StorageEngine.new 1073741824) 0 (ascii "set") (ascii "k")
    (ascii "v") [ascii "x"] (by decide)⟩

/-- C19: for every engine state and every command `[verb, k1, k2, ...]` whose
verb uppercases to `DEL`, `processCommand` replies exactly `":1\r\n"` if `k1`
was present and `":0\r\n"` otherwise, and leaves the engine in the state of
`engine.del(k1)`; the keys `k2, ...` have no effect. -/
theorem C19_DEL_command (engine : StorageEngine) (now : Nat) (verb k1 : Bytes)
    (extra : List Bytes) (h : verb.map toupper = ascii "DEL") :
    processCommand engine now (verb :: k1 :: extra)
      = (if (UMap.find engine.data_store_ k1).isSome = true then ascii ":1\r\n"
          else ascii ":0\r\n", (del engine k1).2) := by
  rw [processCommand_DEL engine now verb k1 extra h, del_fst]

/-- C19 for the command `Del k x` on the engine of the server after
`set("k", "v")`. -/
theorem C19_DEL_command_witness :
    (ascii "Del").map toupper = ascii "DEL" ∧
      processCommand (set (StorageEngine.new 1073741824) 0 (ascii "k") (ascii "v")).2 1
        (ascii "Del" :: ascii "k" :: [ascii "x"])
        = (if (UMap.find (set (StorageEngine.new 1073741824) 0 (ascii "k")
              (ascii "v")).2.data_store_ (ascii "k")).isSome = true then ascii ":1\r\n"
            else ascii ":0\r\n",
          (del (set (StorageEngine.new 1073741824) 0 (ascii "k") (ascii "v")).2
            (ascii "k")).2) :=
  ⟨by decide, C19_DEL_command _ 1 (ascii "Del") (ascii "k") [ascii "x"] (by decide)⟩

/-- C20: for every reachable engine state, key `k` and value `v`: after the
command `SET k v`, the command `DEL k` is answered `":1\r\n"`, the same command
repeated at once is answered `":0\r\n"`, and the command `GET k` that follows is
answered `"$-1\r\n"`. -/
theorem C20_set_del_del_get (s : StorageEngine) (hr : Reachable s) (n1 n2 n3 n4 : Nat)
    (k v : Bytes) :
    (processCommand (processCommand s n1 [ascii "SET", k, v]).2 n2 [ascii "DEL", k]).1
        = ascii ":1\r\n" ∧
      (processCommand
        (processCommand (processCommand s n1 [ascii "SET", k, v]).2 n2 [ascii "DEL", k]).2
        n3 [ascii "DEL", k]).1 = ascii ":0\r\n" ∧
      (processCommand
        (processCommand
          (processCommand (processCommand s n1 [ascii "SET", k, v]).2 n2 [ascii "DEL", k]).2
          n3 [ascii "DEL", k]).2
        n4 [ascii "GET", k]).1 = ascii "$-1\r\n" := by
  have hS : (ascii "SET").map toupper = ascii "SET" := by decide
  have hD : (ascii "DEL").map toupper = ascii "DEL" := by decide
  have hG : (ascii "GET").map toupper = ascii "GET" := by decide
  have hi1 : Inv (set s n1 k v).2 := (Inv.of_reachable hr).set n1 k v
  have hf1 := set_find_self s n1 k v
  have hf2 := del_find_self hi1 k
  rw [processCommand_SET s n1 _ k v [] hS]
  simp only [processCommand_DEL _ _ _ k [] hD, processCommand_GET _ _ _ k [] hG]
  have hd1 : (del (set s n1 k v).2 k).1 = true := by
    rw [del_fst, hf1]
    rfl
  have hd2 : del (del (set s n1 k v).2 k).2 k = (false, (del (set s n1 k v).2 k).2) :=
    del_of_absent _ k hf2
  have hg : get (del (set s n1 k v).2 k).2 n4 k = (NULL, (del (set s n1 k v).2 k).2) :=
    get_of_absent _ n4 k hf2
  refine ⟨?_, ?_, ?_⟩
  · rw [if_pos hd1]
  · rw [hd2]
    simp
  · rw [hd2]
    simp only [hg]
    simp

/-- C20 on the engine of the server after `set("a", "b")`, for the key `"k"`
and the value `"v"`. -/
theorem C20_set_del_del_get_witness :
    Reachable (run (StorageEngine.new 1073741824) [Op.set 0 (ascii "a") (ascii "b")]) ∧
      (processCommand (processCommand
        (run (StorageEngine.new 1073741824) [Op.set 0 (ascii "a") (ascii "b")])
        1 [ascii "SET", ascii "k", ascii "v"]).2 2 [ascii "DEL", ascii "k"]).1
        = ascii ":1\r\n" :=
  ⟨⟨1073741824, _, rfl⟩,
    (C20_set_del_del_get (run (StorageEngine.new 1073741824) [Op.set 0 (ascii "a") (ascii "b")])
      ⟨1073741824, _, rfl⟩ 1 2 3 4 (ascii "k") (ascii "v")).1⟩

/-! ## Decimal representations -/

theorem digit_toNat (d : Nat) (h : d < 10) : (48 + d).toUInt8.toNat = 48 + d :=
  UInt8.toNat_ofNat_of_lt (by simp only [UInt8.size]; omega)

theorem decimal_of_lt_ten (n : Nat) (h : n < 10) : decimal n = [(48 + n).toUInt8] := by
  unfold decimal
  by_cases h0 : n = 0
  · subst h0
    rfl
  · rw [if_neg h0, Nat.digits_of_lt 10 n h0 h]
    rfl

theorem decimal_of_ten_le (n : Nat) (h : 10 ≤ n) :
    decimal n = decimal (n / 10) ++ [(48 + n % 10).toUInt8] := by
  have h0 : n ≠ 0 := by omega
  have h1 : n / 10 ≠ 0 := by omega
  unfold decimal
  rw [if_neg h0, if_neg h1, Nat.digits_def' (by decide) (by omega)]
  simp

/-- The model of `std::to_string` computes the decimal representation, and
the fuel `n + 1` is enough. -/
theorem toDigitsFuel_eq (fuel n : Nat) (acc : Bytes) (h : n < fuel) :
    toDigitsFuel fuel n acc = decimal n ++ acc := by
  induction fuel generalizing n acc with
  | zero => omega
  | succ f ih =>
    unfold toDigitsFuel
    by_cases h10 : n < 10
    · rw [if_pos h10, decimal_of_lt_ten n h10]
      rfl
    · rw [if_neg h10, ih (n / 10) _ (by omega), decimal_of_ten_le n (by omega)]
      simp

theorem to_string_eq_decimal (n : Nat) : to_string n = decimal n := by
  unfold to_string
  rw [toDigitsFuel_eq (n + 1) n [] (by omega)]
  simp

theorem decimal_ne_nil (n : Nat) : decimal n ≠ [] := by
  by_cases h10 : n < 10
  · rw [decimal_of_lt_ten n h10]
    simp
  · rw [decimal_of_ten_le n (by omega)]
    simp

theorem decimal_isdigit (n : Nat) : ∀ c ∈ decimal n, 48 ≤ c.toNat ∧ c.toNat ≤ 57 := by
  induction n using Nat.strong_induction_on with
  | _ n ih =>
    intro c hc
    by_cases h10 : n < 10
    · rw [decimal_of_lt_ten n h10] at hc
      rw [List.mem_singleton.1 hc, digit_toNat n h10]
      omega
    · rw [decimal_of_ten_le n (by omega)] at hc
      rcases List.mem_append.1 hc with h | h
      · exact ih (n / 10) (by omega) c h
      · rw [List.mem_singleton.1 h, digit_toNat (n % 10) (by omega)]
        omega

theorem digitsValue_append (l : Bytes) (c : UInt8) :
    digitsValue (l ++ [c]) = 10 * digitsValue l + (c.toNat - 48) := by
  simp [digitsValue, List.foldl_append]

/-- The value of the decimal representation of `n` is `n`. -/
theorem digitsValue_decimal (n : Nat) : digitsValue (decimal n) = n := by
  induction n using Nat.strong_induction_on with
  | _ n ih =>
    by_cases h10 : n < 10
    · rw [decimal_of_lt_ten n h10]
      simp only [digitsValue, List.foldl_cons, List.foldl_nil, digit_toNat n h10]
      omega
    · rw [decimal_of_ten_le n (by omega), digitsValue_append, ih (n / 10) (by omega),
        digit_toNat (n % 10) (by omega)]
      omega

theorem decimal_injective (n m : Nat) (h : decimal n = decimal m) : n = m := by
  rw [← digitsValue_decimal n, ← digitsValue_decimal m, h]

theorem decimal_no_CR (n : Nat) : (13 : UInt8) ∉ decimal n := by
  intro h
  have := decimal_isdigit n 13 h
  have h13 : (13 : UInt8).toNat = 13 := rfl
  rw [h13] at this
  omega

/-! ## The other branches of `processCommand` -/

theorem toUInt8_toNat (b : UInt8) : b.toNat.toUInt8 = b := by
  apply UInt8.toNat.inj
  exact UInt8.toNat_ofNat_of_lt (UInt8.toNat_lt_size b)

theorem toupper_eq_of_sameLetter (a b : UInt8) (h : sameLetter a b) :
    toupper a = toupper b := by
  rcases h with h | ⟨h1, h2, h3⟩ | ⟨h1, h2, h3⟩
  · rw [h]
  · have hb : ¬ (97 ≤ b.toNat ∧ b.toNat ≤ 122) := by omega
    have ha : a.toNat - 32 = b.toNat := by omega
    unfold toupper
    rw [if_pos ⟨h1, h2⟩, if_neg hb, ha, toUInt8_toNat]
  · have ha : ¬ (97 ≤ a.toNat ∧ a.toNat ≤ 122) := by omega
    have hb : b.toNat - 32 = a.toNat := by omega
    unfold toupper
    rw [if_neg ha, if_pos ⟨h1, h2⟩, hb, toUInt8_toNat]

theorem map_toupper_eq_of_sameUpToCase (v w : Bytes) (h : sameUpToCase v w) :
    v.map toupper = w.map toupper := by
  unfold sameUpToCase at h
  induction h with
  | nil => rfl
  | cons hab _ ih =>
    simp only [List.map_cons, ih, toupper_eq_of_sameLetter _ _ hab]

/-- The method `processCommand` reads the first argument of a command only
through its upper-case form. -/
theorem processCommand_congr (engine : StorageEngine) (now : Nat) (v w : Bytes)
    (args : List Bytes) (h : v.map toupper = w.map toupper) :
    processCommand engine now (v :: args) = processCommand engine now (w :: args) := by
  simp [processCommand, h]

theorem processCommand_CONFIG (engine : StorageEngine) (now : Nat) (verb : Bytes)
    (args : List Bytes) (h : verb.map toupper = ascii "CONFIG") :
    processCommand engine now (verb :: args) = (ascii "*0\r\n", engine) := by
  have h1 : ascii "CONFIG" ≠ ascii "SET" := by decide
  have h2 : encodeArray [] = ascii "*0\r\n" := by decide
  simp [processCommand, h, h1, h2]

theorem processCommand_error (engine : StorageEngine) (now : Nat) (verb : Bytes)
    (args : List Bytes)
    (h : (verb.map toupper ≠ ascii "SET" ∧ verb.map toupper ≠ ascii "GET" ∧
          verb.map toupper ≠ ascii "DEL" ∧ verb.map toupper ≠ ascii "CONFIG") ∨
        (verb.map toupper = ascii "SET" ∧ (verb :: args).length < 3) ∨
        ((verb.map toupper = ascii "GET" ∨ verb.map toupper = ascii "DEL") ∧
          (verb :: args).length < 2)) :
    processCommand engine now (verb :: args)
      = (ascii "-ERR unknown command or wrong number of arguments\r\n", engine) := by
  have he : encodeError (ascii "ERR unknown command or wrong number of arguments")
      = ascii "-ERR unknown command or wrong number of arguments\r\n" := by decide
  have h1 : ascii "SET" ≠ ascii "CONFIG" := by decide
  have h2 : ascii "SET" ≠ ascii "GET" := by decide
  have h3 : ascii "SET" ≠ ascii "DEL" := by decide
  have h4 : ascii "GET" ≠ ascii "SET" := by decide
  have h5 : ascii "GET" ≠ ascii "CONFIG" := by decide
  have h6 : ascii "GET" ≠ ascii "DEL" := by decide
  have h7 : ascii "DEL" ≠ ascii "SET" := by decide
  have h8 : ascii "DEL" ≠ ascii "CONFIG" := by decide
  have h9 : ascii "DEL" ≠ ascii "GET" := by decide
  rcases h with ⟨a, b, c, d⟩ | ⟨a, b⟩ | ⟨a | a, b⟩
  · simp [processCommand, a, b, c, d, he]
  · have hl : ¬ 2 ≤ args.length := by
      simp only [List.length_cons] at b
      omega
    simp [processCommand, a, h1, h2, h3, he, hl]
  · have hl : args = [] := by
      cases args with
      | nil => rfl
      | cons x t =>
        simp only [List.length_cons] at b
        omega
    simp [processCommand, a, h4, h5, h6, he, hl]
  · have hl : args = [] := by
      cases args with
      | nil => rfl
      | cons x t =>
        simp only [List.length_cons] at b
        omega
    simp [processCommand, a, h7, h8, h9, he, hl]

/-- C21: for every engine state and every non-empty command whose upper-cased
first argument is none of `SET`, `GET`, `DEL`, `CONFIG`, or is `SET` with fewer
than three arguments, or is `GET` or `DEL` with fewer than two arguments,
`processCommand` replies exactly
`"-ERR unknown command or wrong number of arguments\r\n"` and leaves the engine
unchanged. -/
theorem C21_error_reply (engine : StorageEngine) (now : Nat) (verb : Bytes)
    (args : List Bytes)
    (h : (verb.map toupper ≠ ascii "SET" ∧ verb.map toupper ≠ ascii "GET" ∧
          verb.map toupper ≠ ascii "DEL" ∧ verb.map toupper ≠ ascii "CONFIG") ∨
        (verb.map toupper = ascii "SET" ∧ (verb :: args).length < 3) ∨
        ((verb.map toupper = ascii "GET" ∨ verb.map toupper = ascii "DEL") ∧
          (verb :: args).length < 2)) :
    processCommand engine now (verb :: args)
      = (ascii "-ERR unknown command or wrong number of arguments\r\n", engine) :=
  processCommand_error engine now verb args h

/-- C21 for the command `PING` on the engine of the server. -/
theorem C21_error_reply_witness :
    ((ascii "PING").map toupper ≠ ascii "SET" ∧ (ascii "PING").map toupper ≠ ascii "GET" ∧
        (ascii "PING").map toupper ≠ ascii "DEL" ∧
        (ascii "PING").map toupper ≠ ascii "CONFIG") ∧
      processCommand (StorageEngine.new 1073741824) 0 [ascii "PING"]
        = (ascii "-ERR unknown command or wrong number of arguments\r\n",
          StorageEngine.new 1073741824) :=
  ⟨by decide, C21_error_reply (StorageEngine.new 1073741824) 0 (ascii "PING") []
    (Or.inl (by decide))⟩

/-- C22: for every engine state and every command whose first argument
uppercases to `CONFIG`, whatever the number of further arguments,
`processCommand` replies exactly `"*0\r\n"` and leaves the engine unchanged. -/
theorem C22_CONFIG_command (engine : StorageEngine) (now : Nat) (verb : Bytes)
    (args : List Bytes) (h : verb.map toupper = ascii "CONFIG") :
    processCommand engine now (verb :: args) = (ascii "*0\r\n", engine) :=
  processCommand_CONFIG engine now verb args h

/-- C22 for the command `config GET` on the engine of the server. -/
theorem C22_CONFIG_command_witness :
    (ascii "config").map toupper = ascii "CONFIG" ∧
      processCommand (StorageEngine.new 1073741824) 0 [ascii "config", ascii "GET"]
        = (ascii "*0\r\n", StorageEngine.new 1073741824) :=
  ⟨by decide, C22_CONFIG_command (StorageEngine.new 1073741824) 0 (ascii "config")
    [ascii "GET"] (by decide)⟩

/-- C23: for every engine state and every two commands that are identical
except for the case of the ASCII letters of their first argument,
`processCommand` gives the same reply and the same engine state; and the engine
is called, if at all, with the second and third arguments as they are: the
state after the command is the previous one, or that of `set`, `get` or `del`
on these arguments. -/
theorem C23_verb_case_insensitive (engine : StorageEngine) (now : Nat) (v w : Bytes)
    (args : List Bytes) (h : sameUpToCase v w) :
    processCommand engine now (v :: args) = processCommand engine now (w :: args) ∧
      ((processCommand engine now (v :: args)).2 = engine ∨
        (processCommand engine now (v :: args)).2
          = (set engine now (args.getD 0 []) (args.getD 1 [])).2 ∨
        (processCommand engine now (v :: args)).2 = (get engine now (args.getD 0 [])).2 ∨
        (processCommand engine now (v :: args)).2 = (del engine (args.getD 0 [])).2) := by
  refine ⟨processCommand_congr engine now v w args (map_toupper_eq_of_sameUpToCase v w h), ?_⟩
  unfold processCommand
  simp only [List.getD_cons_succ]
  split
  · exact Or.inl rfl
  · split
    · exact Or.inr (Or.inl rfl)
    · split
      · exact Or.inl rfl
      · split
        · exact Or.inr (Or.inr (Or.inl rfl))
        · split
          · exact Or.inr (Or.inr (Or.inr rfl))
          · exact Or.inl rfl

/-- C23 for the verbs `set` and `SeT` with the arguments `k`, `v`. -/
theorem C23_verb_case_insensitive_witness :
    sameUpToCase (ascii "set") (ascii "SeT") ∧
      processCommand (StorageEngine.new 1073741824) 0 [ascii "set", ascii "k", ascii "v"]
        = processCommand (StorageEngine.new 1073741824) 0 [ascii "SeT", ascii "k", ascii "v"] :=
  ⟨List.Forall₂.cons (Or.inr (Or.inl (by decide)))
      (List.Forall₂.cons (Or.inl rfl)
        (List.Forall₂.cons (Or.inr (Or.inl (by decide))) List.Forall₂.nil)),
    (C23_verb_case_insensitive (StorageEngine.new 1073741824) 0 (ascii "set") (ascii "SeT")
      [ascii "k", ascii "v"]
      (List.Forall₂.cons (Or.inr (Or.inl (by decide)))
        (List.Forall₂.cons (Or.inl rfl)
          (List.Forall₂.cons (Or.inr (Or.inl (by decide))) List.Forall₂.nil)))).1⟩

/-! ## The encoders -/

theorem encodeBulkString_eq (str : Bytes) :
    encodeBulkString str = 36 :: (decimal str.length ++ 13 :: 10 :: (str ++ [13, 10])) := by
  unfold encodeBulkString
  rw [to_string_eq_decimal]
  have h1 : ascii "$" = [36] := by decide
  have h2 : ascii "\r\n" = [13, 10] := by decide
  rw [h1, h2]
  simp

theorem foldl_append_eq_flatten (f : Bytes → Bytes) (l : List Bytes) (init : Bytes) :
    l.foldl (fun result item => result ++ f item) init = init ++ (l.map f).flatten := by
  induction l generalizing init with
  | nil => simp
  | cons a t ih => simp [ih]

theorem encodeArray_eq (arr : List Bytes) :
    encodeArray arr
      = 42 :: (decimal arr.length ++ 13 :: 10 :: (arr.map encodeBulkString).flatten) := by
  unfold encodeArray
  rw [foldl_append_eq_flatten, to_string_eq_decimal]
  have h1 : ascii "*" = [42] := by decide
  have h2 : ascii "\r\n" = [13, 10] := by decide
  rw [h1, h2]
  simp

/-- C24: for every byte string `s`, whatever bytes it holds,
`encodeBulkString(s)` is exactly `"$"`, the decimal representation of `len(s)`,
`"\r\n"`, the bytes of `s` unchanged, and `"\r\n"`; its length is
`len(decimal(len(s))) + len(s) + 5`. -/
theorem C24_encodeBulkString_form (str : Bytes) :
    encodeBulkString str
        = ascii "$" ++ decimal str.length ++ ascii "\r\n" ++ str ++ ascii "\r\n" ∧
      (encodeBulkString str).length = (decimal str.length).length + str.length + 5 := by
  have h1 : ascii "$" = [36] := by decide
  have h2 : ascii "\r\n" = [13, 10] := by decide
  rw [encodeBulkString_eq, h1, h2]
  constructor
  · simp
  · simp only [List.length_cons, List.length_append, List.length_nil]
    omega

/-- C25: for every list of byte strings, `encodeArray(items)` is exactly `"*"`,
the decimal representation of the number of items and `"\r\n"`, followed by the
concatenation, in order, of `encodeBulkString(item)` for each item, and nothing
else; for the empty list it is exactly `"*0\r\n"`. -/
theorem C25_encodeArray_form (items : List Bytes) :
    encodeArray items
        = ascii "*" ++ decimal items.length ++ ascii "\r\n"
          ++ (items.map encodeBulkString).flatten ∧
      encodeArray [] = ascii "*0\r\n" := by
  have h1 : ascii "*" = [42] := by decide
  have h2 : ascii "\r\n" = [13, 10] := by decide
  rw [encodeArray_eq, h1, h2]
  constructor
  · simp
  · decide

/-! ## The update branch of `set` -/

/-- C27: for every reachable engine state, every key `k` that is present and
every value `v`, `set(k, v)` evicts nothing: the keys of the store are the
same, every other key keeps its entry, `lru_list_` is `k` followed by the other
keys in their previous order, the entry of `k` holds `v` with the new size, and
`getMemoryUsage()` changes by exactly the new size minus the old size,
whatever `max_memory_size` is. -/
theorem C27_update_evicts_nothing (s : StorageEngine) (hr : Reachable s) (now : Nat)
    (k v : Bytes) (it : CacheItem) (hf : UMap.find s.data_store_ k = some it) :
    (∀ k', k' ∈ UMap.keys (set s now k v).2.data_store_ ↔ k' ∈ UMap.keys s.data_store_) ∧
      (∀ k', k' ≠ k →
        UMap.find (set s now k v).2.data_store_ k' = UMap.find s.data_store_ k') ∧
      UMap.find (set s now k v).2.data_store_ k
        = some { value := v, last_accessed := now, size := k.length + v.length + 64 } ∧
      lruKeys (set s now k v).2 = k :: (lruKeys s).filter (fun k' => decide (k' ≠ k)) ∧
      getMemoryUsage (set s now k v).2 + it.size
        = getMemoryUsage s + (k.length + v.length + 64) := by
  have hi := Inv.of_reachable hr
  have hnd : (lruKeys s).Nodup := hi.lru.keys_nodup
  have hkeys := lruKeys_set_present hi now k v it hf
  have hself := set_find_self s now k v
  have hle := hi.size_le_usage k it hf
  rw [set_of_present s now k v it hf] at hkeys hself ⊢
  simp only [updateLRU_data_store, getMemoryUsage, updateLRU_usage] at hself ⊢
  refine ⟨?_, fun k' hne => UMap.find_assign_ne _ _ _ _ hne, hself, ?_, ?_⟩
  · intro k'
    rw [UMap.mem_keys_assign]
    constructor
    · rintro (e | e)
      · rw [e]
        exact (UMap.mem_keys_iff _ _).2 ⟨it, hf⟩
      · exact e
    · exact fun h => Or.inr h
  · rw [hkeys, hnd.erase_eq_filter]
    congr 1
    apply List.filter_congr
    intro x _
    by_cases e : x = k <;> simp [e]
  · simp only [calculateItemSize, OVERHEAD_PER_ENTRY]
    omega

/-- C27 at the state reached by `set("\x01", "")`, `set("\x02", "")` with
`max_memory_size = 130`, for `set("\x01", "\x00")`, which brings the usage to
131. -/
theorem C27_update_evicts_nothing_witness :
    UMap.find (run (StorageEngine.new 130) [Op.set 0 [1] [], Op.set 1 [2] []]).data_store_ [1]
        = some { value := [], last_accessed := 0, size := 65 } ∧
      getMemoryUsage (set (run (StorageEngine.new 130) [Op.set 0 [1] [], Op.set 1 [2] []])
        2 [1] [0]).2 + 65
        = getMemoryUsage (run (StorageEngine.new 130) [Op.set 0 [1] [], Op.set 1 [2] []])
          + (([1] : Bytes).length + ([0] : Bytes).length + 64) :=
  ⟨by decide,
    (C27_update_evicts_nothing (run (StorageEngine.new 130) [Op.set 0 [1] [], Op.set 1 [2] []])
      ⟨130, _, rfl⟩ 2 [1] [0] { value := [], last_accessed := 0, size := 65 }
      (by decide)).2.2.2.2⟩

/-! ## Reading lines -/

theorem takeWhile_CR_append (line x : Bytes) (h : (13 : UInt8) ∉ line) :
    (line ++ 13 :: x).takeWhile (fun c => c != 13) = line := by
  induction line with
  | nil => simp
  | cons a t ih =>
    have ha : a ≠ 13 := fun e => h (by simp [e])
    have ht : (13 : UInt8) ∉ t := fun e => h (List.mem_cons_of_mem _ e)
    simp [List.takeWhile_cons, ha, ih ht]

theorem dropWhile_CR_append (line x : Bytes) (h : (13 : UInt8) ∉ line) :
    (line ++ 13 :: x).dropWhile (fun c => c != 13) = 13 :: x := by
  induction line with
  | nil => simp
  | cons a t ih =>
    have ha : a ≠ 13 := fun e => h (by simp [e])
    have ht : (13 : UInt8) ∉ t := fun e => h (List.mem_cons_of_mem _ e)
    simp [List.dropWhile_cons, ha, ih ht]

/-- A line without CR that is followed by CR and one more character is read
whole, and the stream is left good after this character. -/
theorem readLine_line (line : Bytes) (c : UInt8) (tail : Bytes) (h : (13 : UInt8) ∉ line) :
    readLine { rest := line ++ 13 :: c :: tail, good := true }
      = (line, { rest := tail, good := true }) := by
  simp [readLine, getlineCR, istreamGet, takeWhile_CR_append line _ h,
    dropWhile_CR_append line _ h]

theorem readLine_fst (buffer : Bytes) :
    (readLine (IStream.ofString buffer)).1 = buffer.takeWhile (fun c => c != 13) := by
  unfold readLine getlineCR IStream.ofString
  simp only [if_true]
  split <;> rfl

theorem split_at_CR (b : Bytes) (h : (13 : UInt8) ∈ b) :
    ∃ line tail, b = line ++ 13 :: tail ∧ (13 : UInt8) ∉ line := by
  induction b with
  | nil => simp at h
  | cons a t ih =>
    by_cases ha : a = 13
    · exact ⟨[], t, by simp [ha], by simp⟩
    · have ht : (13 : UInt8) ∈ t := by
        rcases List.mem_cons.1 h with e | e
        · exact absurd e.symm ha
        · exact e
      obtain ⟨line, tail, hb, hl⟩ := ih ht
      refine ⟨a :: line, tail, by simp [hb], ?_⟩
      intro hm
      rcases List.mem_cons.1 hm with e | e
      · exact ha e.symm
      · exact hl e

/-- On a buffer that holds a CR and does not start with `'*'`, `parseRequest`
returns the empty result. -/
theorem parseRequest_not_array (b s : Bytes) (hcr : (13 : UInt8) ∈ b)
    (hstar : b.head? ≠ some 42) : parseRequest (b ++ s) = Except.ok [] := by
  obtain ⟨line, tail, hb, hl⟩ := split_at_CR b hcr
  have hline : (readLine (IStream.ofString (b ++ s))).1 = line := by
    rw [readLine_fst, hb, List.append_assoc, List.cons_append, takeWhile_CR_append line _ hl]
  unfold parseRequest
  rw [hline]
  cases line with
  | nil => rfl
  | cons a t =>
    have ha : a ≠ 42 := by
      intro e
      apply hstar
      rw [hb, e]
      rfl
    simp [ha]

theorem handleRead_not_array (b s : Bytes) (hcr : (13 : UInt8) ∈ b)
    (hstar : b.head? ≠ some 42) (engine : StorageEngine) (written : List Bytes)
    (now : Nat) (data : Bytes) :
    handleRead { engine_ := engine, buffer := b ++ s, written := written } now data
      = Except.ok { engine_ := engine, buffer := b ++ (s ++ data), written := written } := by
  unfold handleRead
  simp only [List.append_assoc]
  rw [parseRequest_not_array b (s ++ data) hcr hstar]
  rfl

theorem handleClient_not_array (b : Bytes) (hcr : (13 : UInt8) ∈ b)
    (hstar : b.head? ≠ some 42) (engine : StorageEngine) (written : List Bytes)
    (reads : List (Nat × Bytes)) (s : Bytes) :
    handleClient { engine_ := engine, buffer := b ++ s, written := written } reads
      = Except.ok
        { engine_ := engine
          buffer := b ++ s ++ (reads.map Prod.snd).flatten
          written := written } := by
  induction reads generalizing s with
  | nil => simp [handleClient]
  | cons r t ih =>
    obtain ⟨now, data⟩ := r
    unfold handleClient
    rw [handleRead_not_array b s hcr hstar engine written now data]
    simp only []
    rw [ih (s ++ data)]
    simp

/-- C28: for every byte string `b` that holds a CR and whose first byte is not
`'*'`, and every byte string `s`, `parseRequest(b ++ s)` returns the empty
result; hence, once the inbound buffer of a connection starts with such a `b`,
whatever the later `read`s deliver, `handleClient` only appends to the buffer:
it never clears it, dispatches no command (the engine is unchanged) and writes
no reply. -/
theorem C28_buffer_stuck (b s : Bytes) (hcr : (13 : UInt8) ∈ b)
    (hstar : b.head? ≠ some 42) :
    parseRequest (b ++ s) = Except.ok [] ∧
      ∀ (engine : StorageEngine) (written : List Bytes) (reads : List (Nat × Bytes)),
        handleClient { engine_ := engine, buffer := b ++ s, written := written } reads
          = Except.ok
            { engine_ := engine
              buffer := b ++ s ++ (reads.map Prod.snd).flatten
              written := written } :=
  ⟨parseRequest_not_array b s hcr hstar,
    fun engine written reads => handleClient_not_array b hcr hstar engine written reads s⟩

/-- C28 for the inline command `"PING\r\n"` in the buffer, followed by a
`read` that delivers the frame of `GET k`: nothing is dispatched. -/
theorem C28_buffer_stuck_witness :
    ((13 : UInt8) ∈ ascii "PING\r\n" ∧ (ascii "PING\r\n").head? ≠ some 42) ∧
      handleClient
        { engine_ := StorageEngine.new 1073741824, buffer := ascii "PING\r\n" ++ [],
          written := [] }
        [(0, encodeArray [ascii "GET", ascii "k"])]
        = Except.ok
          { engine_ := StorageEngine.new 1073741824
            buffer := ascii "PING\r\n" ++ []
              ++ ([(0, encodeArray [ascii "GET", ascii "k"])].map Prod.snd).flatten
            written := [] } :=
  ⟨by decide,
    (C28_buffer_stuck (ascii "PING\r\n") [] (by decide) (by decide)).2
      (StorageEngine.new 1073741824) [] [(0, encodeArray [ascii "GET", ascii "k"])]⟩

/-! ## Decoding an encoded request -/

theorem takeWhile_isdigit_decimal (n : Nat) : (decimal n).takeWhile isdigit = decimal n := by
  apply List.takeWhile_eq_self_iff.2
  intro c hc
  have := decimal_isdigit n c hc
  simp [isdigit, this.1, this.2]

theorem stoiParts_decimal (n : Nat) : stoiParts (decimal n) = (false, decimal n) := by
  have htw := takeWhile_isdigit_decimal n
  cases hd : decimal n with
  | nil => exact absurd hd (decimal_ne_nil n)
  | cons c t =>
    have hc := decimal_isdigit n c (by rw [hd]; exact List.mem_cons_self _ _)
    rw [hd] at htw
    have hsp : isspace c = false := by
      have h32 : c ≠ 32 := by
        intro e
        rw [e] at hc
        have : (32 : UInt8).toNat = 32 := rfl
        omega
      simp only [isspace, Bool.or_eq_false_iff, Bool.and_eq_false_iff, beq_eq_false_iff_ne,
        ne_eq, decide_eq_false_iff_not]
      exact ⟨h32, Or.inr (by omega)⟩
    have h45 : c ≠ 45 := by
      intro e
      rw [e] at hc
      have : (45 : UInt8).toNat = 45 := rfl
      omega
    have h43 : c ≠ 43 := by
      intro e
      rw [e] at hc
      have : (43 : UInt8).toNat = 43 := rfl
      omega
    unfold stoiParts
    rw [List.dropWhile_cons_of_neg (by simp [hsp])]
    split
    · rename_i heq
      simp only [List.cons.injEq] at heq
      exact absurd heq.1 h45
    · rename_i heq
      simp only [List.cons.injEq] at heq
      exact absurd heq.1 h43
    · rw [htw]

/-- The function `std::stoi` on a decimal representation: the number when it
is an `int`, and `std::out_of_range` otherwise. -/
theorem stoi_decimal (n : Nat) :
    stoi (decimal n)
      = if n ≤ 2147483647 then Except.ok (n : Int)
        else Except.error StoiError.out_of_range := by
  unfold stoi
  rw [stoiParts_decimal n]
  simp only [decimal_ne_nil n, if_false, digitsValue_decimal]
  by_cases h : n ≤ 2147483647
  · have h' : ¬ 2147483647 < n := by omega
    simp [h, h']
  · have h' : 2147483647 < n := by omega
    simp [h, h']

theorem parseArray_encoded (args : List Bytes) (rest : Bytes)
    (h : ∀ a ∈ args, (13 : UInt8) ∉ a) :
    parseArray { rest := (args.map encodeBulkString).flatten ++ rest, good := true }
      args.length = args := by
  induction args with
  | nil => rfl
  | cons a t ih =>
    have ha : (13 : UInt8) ∉ a := h a (List.mem_cons_self _ _)
    have ht : ∀ x ∈ t, (13 : UInt8) ∉ x := fun x hx => h x (List.mem_cons_of_mem _ hx)
    have hhead : (13 : UInt8) ∉ 36 :: decimal a.length := by
      intro hm
      rcases List.mem_cons.1 hm with e | e
      · exact absurd e (by decide)
      · exact decimal_no_CR _ e
    have hbuf : ((a :: t).map encodeBulkString).flatten ++ rest
        = (36 :: decimal a.length) ++ 13 :: 10
          :: (a ++ 13 :: 10 :: ((t.map encodeBulkString).flatten ++ rest)) := by
      simp [encodeBulkString_eq]
    have h1 := readLine_line (36 :: decimal a.length) 10
      (a ++ 13 :: 10 :: ((t.map encodeBulkString).flatten ++ rest)) hhead
    have h2 := readLine_line a 10 ((t.map encodeBulkString).flatten ++ rest) ha
    rw [hbuf]
    simp only [List.length_cons]
    unfold parseArray
    simp only [h1, parseBulkString, h2]
    simp [ih ht]

/-- What `parseRequest` returns on an encoded list of strings without CR,
whatever follows the frame. -/
theorem parseRequest_encoded (args : List Bytes) (rest : Bytes)
    (h : ∀ a ∈ args, (13 : UInt8) ∉ a) :
    parseRequest (encodeArray args ++ rest)
      = if args.length ≤ 2147483647 then Except.ok args
        else Except.error StoiError.out_of_range := by
  have hhead : (13 : UInt8) ∉ 42 :: decimal args.length := by
    intro hm
    rcases List.mem_cons.1 hm with e | e
    · exact absurd e (by decide)
    · exact decimal_no_CR _ e
  have hbuf : encodeArray args ++ rest
      = (42 :: decimal args.length) ++ 13 :: 10
        :: ((args.map encodeBulkString).flatten ++ rest) := by
    rw [encodeArray_eq]
    simp
  have h1 := readLine_line (42 :: decimal args.length) 10
    ((args.map encodeBulkString).flatten ++ rest) hhead
  unfold parseRequest IStream.ofString
  rw [hbuf]
  simp only [h1, List.isEmpty_cons, List.head?_cons, List.drop_succ_cons, List.drop_zero,
    stoi_decimal]
  by_cases hn : args.length ≤ 2147483647
  · simp [hn, parseArray_encoded args rest h]
  · simp [hn]

/-- C26 fails beyond the range of `int`: for the list of 2147483648 empty strings, none of
which holds a CR, `parseRequest(encodeArray(args) ++ "")` does not return
`args`: the count `2147483648` is not an `int` and `std::stoi` throws
`std::out_of_range`. -/
theorem C26_counterexample_count_exceeds_int :
    (∀ a ∈ List.replicate 2147483648 ([] : Bytes), (13 : UInt8) ∉ a) ∧
      parseRequest (encodeArray (List.replicate 2147483648 ([] : Bytes)) ++ [])
        = Except.error StoiError.out_of_range := by
  have h : ∀ a ∈ List.replicate 2147483648 ([] : Bytes), (13 : UInt8) ∉ a := by
    intro a ha
    rw [(List.mem_replicate.1 ha).2]
    simp
  refine ⟨h, ?_⟩
  rw [parseRequest_encoded _ [] h, List.length_replicate]
  rfl

/-- C26 within the range of `int`: for every list `args` of at most 2147483647 byte strings
none of which holds a CR byte, and every byte string `rest`,
`parseRequest(encodeArray(args) ++ rest)` returns exactly `args`: arguments
without CR (empty strings and strings with LF included) round-trip, and the
bytes that follow the first complete frame are ignored by the decoder. -/
theorem C26_roundtrip_without_CR (args : List Bytes) (rest : Bytes)
    (hlen : args.length ≤ 2147483647) (h : ∀ a ∈ args, (13 : UInt8) ∉ a) :
    parseRequest (encodeArray args ++ rest) = Except.ok args := by
  rw [parseRequest_encoded args rest h, if_pos hlen]

/-- C26 within the range of `int`, for the arguments `"GET"`, the empty string and `"a\nb"`,
followed by the bytes `"*1\r\n"`. -/
theorem C26_roundtrip_without_CR_witness :
    ([ascii "GET", [], ascii "a\nb"].length ≤ 2147483647 ∧
        ∀ a ∈ [ascii "GET", [], ascii "a\nb"], (13 : UInt8) ∉ a) ∧
      parseRequest (encodeArray [ascii "GET", [], ascii "a\nb"] ++ ascii "*1\r\n")
        = Except.ok [ascii "GET", [], ascii "a\nb"] :=
  ⟨by decide, C26_roundtrip_without_CR [ascii "GET", [], ascii "a\nb"] (ascii "*1\r\n")
    (by decide) (by decide)⟩

/-! ## The encoding is unambiguous -/

theorem line_unique (d1 d2 x y : Bytes) (h1 : (13 : UInt8) ∉ d1) (h2 : (13 : UInt8) ∉ d2)
    (h : d1 ++ 13 :: x = d2 ++ 13 :: y) : d1 = d2 ∧ x = y := by
  have ht := congrArg (List.takeWhile (fun c => c != 13)) h
  have hd := congrArg (List.dropWhile (fun c => c != 13)) h
  rw [takeWhile_CR_append d1 x h1, takeWhile_CR_append d2 y h2] at ht
  rw [dropWhile_CR_append d1 x h1, dropWhile_CR_append d2 y h2] at hd
  exact ⟨ht, (List.cons.inj hd).2⟩

theorem bulk_items_injective (a b : List Bytes) (hlen : a.length = b.length)
    (h : (a.map encodeBulkString).flatten = (b.map encodeBulkString).flatten) : a = b := by
  induction a generalizing b with
  | nil =>
    cases b with
    | nil => rfl
    | cons y t => simp at hlen
  | cons x s ih =>
    cases b with
    | nil => simp at hlen
    | cons y t =>
      simp only [List.map_cons, List.flatten_cons, encodeBulkString_eq, List.cons_append,
        List.append_assoc, List.cons.injEq, true_and] at h
      obtain ⟨hdec, hrest⟩ := line_unique _ _ _ _ (decimal_no_CR _) (decimal_no_CR _) h
      have hxy : x.length = y.length := decimal_injective _ _ hdec
      have hrest' := (List.cons.inj hrest).2
      obtain ⟨hx, htail⟩ := List.append_inj hrest' hxy
      simp only [List.nil_append, List.cons.injEq, true_and] at htail
      have hst : s.length = t.length := by
        simp only [List.length_cons] at hlen
        omega
      rw [hx, ih t hst htail]

/-- C29: `encodeArray` is injective: for all lists of byte strings `a` and `b`,
whatever bytes they hold, `encodeArray(a) = encodeArray(b)` implies `a = b`. -/
theorem C29_encodeArray_injective (a b : List Bytes) (h : encodeArray a = encodeArray b) :
    a = b := by
  rw [encodeArray_eq, encodeArray_eq] at h
  obtain ⟨hdec, hrest⟩ :=
    line_unique _ _ _ _ (decimal_no_CR _) (decimal_no_CR _) (List.cons.inj h).2
  exact bulk_items_injective a b (decimal_injective _ _ hdec) (List.cons.inj hrest).2

/-- C29 for two equal encodings of the list made of `0x00 CR LF 0x00`. -/
theorem C29_encodeArray_injective_witness :
    encodeArray [[0, 13, 10, 0]] = encodeArray [[0, 13, 10, 0]] ∧
      ([[0, 13, 10, 0]] : List Bytes) = [[0, 13, 10, 0]] :=
  ⟨rfl, C29_encodeArray_injective [[0, 13, 10, 0]] [[0, 13, 10, 0]] rfl⟩

end BlinkDB
